import Mathlib

/-!
Verification of the MPTT (Modified Preorder Tree Traversal) indexing engine
of the django-vgdb repository (`mptt.py`).

The engine maintains nested-set columns `lft`, `rght`, `tree_id`, `level`
on a table of rows, via a pre-save hook (assigns indices on creation,
shifting other rows of the same tree up by 2), a pre-delete hook (closes
the gap left by a removed interval), and read queries (ancestors,
descendants, descendant count).

The table is embedded as a `List Row`; the SQL `UPDATE ... WHERE` range
statements become `List.map` with a conditional row transformer, and the
filtered/ordered QuerySets become `List.filter` composed with
`List.insertionSort`.  Integer columns are `Int` (SQL integers), and the
Python 2 integer division in `get_descendant_count` is `Int.fdiv`
(floor division).
-/

namespace Vgdb

/-- A persisted row of the tree table: primary key, parent foreign key and
the four nested-set columns managed by the engine
(`lft`, `rght`, `tree_id`, `level`). -/
structure Row where
  pk : Nat
  parentId : Option Nat
  lft : Int
  rght : Int
  tree_id : Int
  level : Int
deriving DecidableEq, Repr

/-- An in-memory model instance about to be saved: `pk` is `none` before the
first save, and the `parent` attribute holds the loaded parent object
(or `none` for a root). -/
structure ModelInstance where
  pk : Option Nat
  parent : Option Row
  lft : Int
  rght : Int
  tree_id : Int
  level : Int
deriving DecidableEq, Repr

/-- Embeds `SELECT MAX(tree_id) FROM table`: `none` on an empty table,
otherwise the maximum `tree_id`. -/
def maxTreeId (db : List Row) : Option Int :=
  (db.map Row.tree_id).max?

/-- Embeds `_get_next_tree_id`: `row[0] and (row[0] + 1) or 1`, i.e. `1`
when the table is empty or the maximum is `0` (falsy), else max + 1. -/
def get_next_tree_id (db : List Row) : Int :=
  match maxTreeId db with
  | none => 1
  | some m => if m ≠ 0 then m + 1 else 1

/-- Embeds `UPDATE table SET rght = rght + 2 WHERE rght > target AND
tree_id = tid` (first statement of the pre-save hook's parent branch). -/
def incRghtWhere (db : List Row) (target tid : Int) : List Row :=
  db.map fun r =>
    if target < r.rght ∧ r.tree_id = tid then { r with rght := r.rght + 2 } else r

/-- Embeds `UPDATE table SET lft = lft + 2 WHERE lft > target AND
tree_id = tid` (second statement of the pre-save hook's parent branch). -/
def incLftWhere (db : List Row) (target tid : Int) : List Row :=
  db.map fun r =>
    if target < r.lft ∧ r.tree_id = tid then { r with lft := r.lft + 2 } else r

/-- Embeds the `_pre_save` hook: does nothing when the instance already has
a primary key; otherwise, with a parent set, opens a 2-wide gap before the
parent's closing edge and assigns the new node's fields; with no parent,
assigns a fresh root interval and tree id.  Returns the updated instance
together with the updated table. -/
def pre_save (db : List Row) (inst : ModelInstance) : ModelInstance × List Row :=
  match inst.pk with
  | some _ => (inst, db)
  | none =>
    match inst.parent with
    | some parent =>
      let target := parent.rght - 1
      let tid := parent.tree_id
      let db2 := incLftWhere (incRghtWhere db target tid) target tid
      ({ inst with lft := target + 1, rght := target + 2, tree_id := tid,
                   level := parent.level + 1 }, db2)
    | none =>
      ({ inst with lft := 1, rght := 2, tree_id := get_next_tree_id db,
                   level := 0 }, db)

/-- The row INSERTed by `save()` after the pre-save hook has run, with the
storage-assigned primary key `newPk`. -/
def toRow (inst : ModelInstance) (newPk : Nat) : Row :=
  { pk := newPk, parentId := inst.parent.map Row.pk, lft := inst.lft,
    rght := inst.rght, tree_id := inst.tree_id, level := inst.level }

/-- A full `save()` of a fresh instance: run the pre-save hook, then insert
the resulting row with the storage-assigned key `newPk`. -/
def saveNew (db : List Row) (inst : ModelInstance) (newPk : Nat) : List Row :=
  let p := pre_save db inst
  p.2 ++ [toRow p.1 newPk]

/-- Embeds `UPDATE table SET rght = rght - span WHERE rght > bound AND
tree_id = tid` (first statement of the pre-delete hook). -/
def decRghtWhere (db : List Row) (span bound tid : Int) : List Row :=
  db.map fun r =>
    if bound < r.rght ∧ r.tree_id = tid then { r with rght := r.rght - span } else r

/-- Embeds `UPDATE table SET lft = lft - span WHERE lft > bound AND
tree_id = tid` (second statement of the pre-delete hook). -/
def decLftWhere (db : List Row) (span bound tid : Int) : List Row :=
  db.map fun r =>
    if bound < r.lft ∧ r.tree_id = tid then { r with lft := r.lft - span } else r

/-- Embeds the `_pre_delete` hook: with `span = rght - lft + 1`, decrement
by `span` every `rght` greater than the node's `rght` and every `lft`
greater than the node's `rght`, within the node's tree. -/
def pre_delete (db : List Row) (node : Row) : List Row :=
  let span := node.rght - node.lft + 1
  decLftWhere (decRghtWhere db span node.rght node.tree_id) span node.rght node.tree_id

/-- A full `delete()`: run the pre-delete hook, then remove the node's row
(by primary key) from the table. -/
def deleteNode (db : List Row) (node : Row) : List Row :=
  (pre_delete db node).filter fun r => r.pk ≠ node.pk

/-- Ordering relation used by `order_by('lft')`: ascending `lft`. -/
def lftLE (a b : Row) : Prop := a.lft ≤ b.lft

/-- Ordering relation used by `order_by('-lft')`: descending `lft`. -/
def lftGE (a b : Row) : Prop := b.lft ≤ a.lft

instance : DecidableRel lftLE := fun a b => inferInstanceAs (Decidable (a.lft ≤ b.lft))

instance : DecidableRel lftGE := fun a b => inferInstanceAs (Decidable (b.lft ≤ a.lft))

instance : IsTotal Row lftLE := ⟨fun a b => Int.le_total a.lft b.lft⟩

instance : IsTrans Row lftLE := ⟨fun _ _ _ h₁ h₂ => le_trans h₁ h₂⟩

instance : IsTotal Row lftGE := ⟨fun a b => Int.le_total b.lft a.lft⟩

instance : IsTrans Row lftGE := ⟨fun _ _ _ h₁ h₂ => le_trans h₂ h₁⟩

/-- Embeds `_get_ancestors`: the empty QuerySet when the parent attribute is
null, otherwise all rows whose interval strictly contains the instance's
within the same tree, ordered by `lft` (ascending by default, descending
when `ascending` is true). -/
def get_ancestors (db : List Row) (inst : Row) (ascending : Bool) : List Row :=
  match inst.parentId with
  | none => []
  | some _ =>
    let filtered := db.filter fun A =>
      decide (A.lft < inst.lft ∧ inst.rght < A.rght ∧ A.tree_id = inst.tree_id)
    if ascending then filtered.insertionSort lftGE
    else filtered.insertionSort lftLE

/-- Embeds `_get_descendants`: rows of the same tree whose `lft` lies
strictly between the instance's `lft` and `rght` (or within the closed
interval when `include_self`), ordered ascending by `lft`. -/
def get_descendants (db : List Row) (inst : Row) (includeSelf : Bool) : List Row :=
  let filtered :=
    if includeSelf then
      db.filter fun r =>
        decide (r.tree_id = inst.tree_id ∧ inst.lft ≤ r.lft ∧ r.lft ≤ inst.rght)
    else
      db.filter fun r =>
        decide (r.tree_id = inst.tree_id ∧ inst.lft < r.lft ∧ r.lft < inst.rght)
  filtered.insertionSort lftLE

/-- Embeds `_get_descendant_count`: `(rght - lft - 1) / 2` with Python 2
floor division. -/
def get_descendant_count (inst : Row) : Int :=
  (inst.rght - inst.lft - 1).fdiv 2

/-! ## Abstract model: rose forests and their nested-set flattening

A table fragment holding one tree id is valid when it is (a permutation of)
the depth-first nested-set flattening of an abstract forest of nodes
labelled by primary keys.  The flattening assigns each node the interval
`[l, l + 2·size − 1]` in preorder, the parent pointer of the enclosing
node, and its depth — exactly the layout the MPTT hooks maintain. -/

mutual
/-- A nonempty rose tree carrying the primary key of its root. -/
inductive ATree : Type where
  | node (pk : Nat) (children : AForest) : ATree
deriving DecidableEq
/-- A (possibly empty) ordered forest of rose trees. -/
inductive AForest : Type where
  | anil : AForest
  | acons (t : ATree) (f : AForest) : AForest
deriving DecidableEq
end

mutual
/-- Number of nodes of a tree. -/
def ATree.size : ATree → Nat
  | .node _ f => 1 + f.size
/-- Number of nodes of a forest. -/
def AForest.size : AForest → Nat
  | .anil => 0
  | .acons t f => t.size + f.size
end

mutual
/-- Primary keys of a tree in depth-first preorder. -/
def ATree.pks : ATree → List Nat
  | .node pk f => pk :: f.pks
/-- Primary keys of a forest in depth-first preorder. -/
def AForest.pks : AForest → List Nat
  | .anil => []
  | .acons t f => t.pks ++ f.pks
end

mutual
/-- Nested-set flattening of a tree rooted at left index `l`, with ambient
tree id `tid`, parent pointer `par` and depth `lvl`.  The root row gets
interval `[l, l + 2·size(children) + 1]`; the children follow at `l + 1`,
one level deeper, pointing back at the root. -/
def ATree.flatten : ATree → Int → Option Nat → Int → Int → List Row
  | .node pk f, tid, par, lvl, l =>
    { pk := pk, parentId := par, lft := l, rght := l + 2 * (f.size : Int) + 1,
      tree_id := tid, level := lvl } :: f.flatten tid (some pk) (lvl + 1) (l + 1)
/-- Nested-set flattening of a forest starting at left index `l`: each tree
occupies `2·size` consecutive indices. -/
def AForest.flatten : AForest → Int → Option Nat → Int → Int → List Row
  | .anil, _, _, _, _ => []
  | .acons t f, tid, par, lvl, l =>
    t.flatten tid par lvl l ++ f.flatten tid par lvl (l + 2 * (t.size : Int))
end

/-- Appends a fresh leaf as the last tree of a forest. -/
def AForest.appendLeaf : AForest → Nat → AForest
  | .anil, newPk => .acons (.node newPk .anil) .anil
  | .acons t f, newPk => .acons t (f.appendLeaf newPk)

mutual
/-- Adds a fresh leaf as the last child of the node labelled `k`. -/
def ATree.addChild : ATree → Nat → Nat → ATree
  | .node pk f, k, newPk =>
    if pk = k then .node pk (f.appendLeaf newPk)
    else .node pk (f.addChild k newPk)
/-- Adds a fresh leaf as the last child of the node labelled `k`, wherever
it occurs in the forest. -/
def AForest.addChild : AForest → Nat → Nat → AForest
  | .anil, _, _ => .anil
  | .acons t f, k, newPk => .acons (t.addChild k newPk) (f.addChild k newPk)
end

/-- The primary key at the root of a tree. -/
def ATree.rootPk : ATree → Nat
  | .node pk _ => pk

mutual
/-- Removes the node labelled `k` from the strict subtrees of a tree
(never the root itself). -/
def ATree.removeIn : ATree → Nat → ATree
  | .node pk cs, k => .node pk (cs.remove k)
/-- Removes the tree whose root is labelled `k` from a forest (promoting
nothing: intended for leaves), or recurses into the trees. -/
def AForest.remove : AForest → Nat → AForest
  | .anil, _ => .anil
  | .acons t f, k => if t.rootPk = k then f else .acons (t.removeIn k) (f.remove k)
end

/-- A table fragment is a valid nested-set forest for tree id `tid` when it
is a permutation of the flattening of an abstract forest with no repeated
primary key, rooted at left index 1, depth 0, no parent. -/
def ValidNS (db : List Row) (tid : Int) : Prop :=
  ∃ f : AForest, db.Perm (f.flatten tid none 0 1) ∧ f.pks.Nodup

/-! ### Structural facts about the flattening -/

mutual
theorem ATree.flatten_length_t :
    ∀ (t : ATree) (tid : Int) (par : Option Nat) (lvl l : Int),
      (t.flatten tid par lvl l).length = t.size
  | .node pk f, tid, par, lvl, l => by
    simp [ATree.flatten, ATree.size, AForest.flatten_length_f f tid (some pk) (lvl + 1) (l + 1)]
    omega
theorem AForest.flatten_length_f :
    ∀ (f : AForest) (tid : Int) (par : Option Nat) (lvl l : Int),
      (f.flatten tid par lvl l).length = f.size
  | .anil, _, _, _, _ => rfl
  | .acons t f, tid, par, lvl, l => by
    simp [AForest.flatten, AForest.size,
      ATree.flatten_length_t t tid par lvl l,
      AForest.flatten_length_f f tid par lvl (l + 2 * (t.size : Int))]
end

mutual
theorem ATree.flatten_pks_t :
    ∀ (t : ATree) (tid : Int) (par : Option Nat) (lvl l : Int),
      (t.flatten tid par lvl l).map Row.pk = t.pks
  | .node pk f, tid, par, lvl, l => by
    simp [ATree.flatten, ATree.pks, AForest.flatten_pks_f f tid (some pk) (lvl + 1) (l + 1)]
theorem AForest.flatten_pks_f :
    ∀ (f : AForest) (tid : Int) (par : Option Nat) (lvl l : Int),
      (f.flatten tid par lvl l).map Row.pk = f.pks
  | .anil, _, _, _, _ => rfl
  | .acons t f, tid, par, lvl, l => by
    simp [AForest.flatten, AForest.pks,
      ATree.flatten_pks_t t tid par lvl l,
      AForest.flatten_pks_f f tid par lvl (l + 2 * (t.size : Int))]
end

mutual
theorem ATree.flatten_tree_id_t :
    ∀ (t : ATree) (tid : Int) (par : Option Nat) (lvl l : Int),
      ∀ r ∈ t.flatten tid par lvl l, r.tree_id = tid
  | .node pk f, tid, par, lvl, l => by
    intro r hr
    rcases List.mem_cons.1 hr with h | h
    · subst h; rfl
    · exact AForest.flatten_tree_id_f f tid (some pk) (lvl + 1) (l + 1) r h
theorem AForest.flatten_tree_id_f :
    ∀ (f : AForest) (tid : Int) (par : Option Nat) (lvl l : Int),
      ∀ r ∈ f.flatten tid par lvl l, r.tree_id = tid
  | .anil, _, _, _, _ => by intro r hr; simp [AForest.flatten] at hr
  | .acons t f, tid, par, lvl, l => by
    intro r hr
    rcases List.mem_append.1 hr with h | h
    · exact ATree.flatten_tree_id_t t tid par lvl l r h
    · exact AForest.flatten_tree_id_f f tid par lvl (l + 2 * (t.size : Int)) r h
end

mutual
theorem ATree.flatten_bounds_t :
    ∀ (t : ATree) (tid : Int) (par : Option Nat) (lvl l : Int),
      ∀ r ∈ t.flatten tid par lvl l,
        l ≤ r.lft ∧ r.lft < r.rght ∧ r.rght ≤ l + 2 * (t.size : Int) - 1
  | .node pk f, tid, par, lvl, l => by
    intro r hr
    rcases List.mem_cons.1 hr with h | h
    · subst h
      simp only [ATree.size]
      push_cast
      omega
    · have := AForest.flatten_bounds_f f tid (some pk) (lvl + 1) (l + 1) r h
      simp only [ATree.size]
      push_cast
      omega
theorem AForest.flatten_bounds_f :
    ∀ (f : AForest) (tid : Int) (par : Option Nat) (lvl l : Int),
      ∀ r ∈ f.flatten tid par lvl l,
        l ≤ r.lft ∧ r.lft < r.rght ∧ r.rght ≤ l + 2 * (f.size : Int) - 1
  | .anil, _, _, _, _ => by intro r hr; simp [AForest.flatten] at hr
  | .acons t f, tid, par, lvl, l => by
    intro r hr
    rcases List.mem_append.1 hr with h | h
    · have := ATree.flatten_bounds_t t tid par lvl l r h
      simp only [AForest.size]
      push_cast
      omega
    · have := AForest.flatten_bounds_f f tid par lvl (l + 2 * (t.size : Int)) r h
      simp only [AForest.size]
      push_cast
      omega
end

/-- Shifting a row's interval by a constant. -/
def shiftRow (d : Int) (r : Row) : Row :=
  { r with lft := r.lft + d, rght := r.rght + d }

mutual
theorem ATree.flatten_shift_t :
    ∀ (t : ATree) (tid : Int) (par : Option Nat) (lvl l d : Int),
      t.flatten tid par lvl (l + d) = (t.flatten tid par lvl l).map (shiftRow d)
  | .node pk f, tid, par, lvl, l, d => by
    have hf := AForest.flatten_shift_f f tid (some pk) (lvl + 1) (l + 1) d
    simp only [ATree.flatten, List.map_cons, shiftRow]
    rw [show l + d + 1 = l + 1 + d from by omega, hf,
        show l + d + 2 * (f.size : Int) + 1 = l + 2 * (f.size : Int) + 1 + d from by omega]
theorem AForest.flatten_shift_f :
    ∀ (f : AForest) (tid : Int) (par : Option Nat) (lvl l d : Int),
      f.flatten tid par lvl (l + d) = (f.flatten tid par lvl l).map (shiftRow d)
  | .anil, _, _, _, _, _ => rfl
  | .acons t f, tid, par, lvl, l, d => by
    have ht := ATree.flatten_shift_t t tid par lvl l d
    have hf := AForest.flatten_shift_f f tid par lvl (l + 2 * (t.size : Int)) d
    simp only [AForest.flatten, List.map_append]
    rw [ht, show l + d + 2 * (t.size : Int) = l + 2 * (t.size : Int) + d by omega, hf]
end

mutual
theorem ATree.flatten_lft_strict_t :
    ∀ (t : ATree) (tid : Int) (par : Option Nat) (lvl l : Int),
      (t.flatten tid par lvl l).Pairwise (fun a b => a.lft < b.lft)
  | .node pk f, tid, par, lvl, l => by
    simp only [ATree.flatten, List.pairwise_cons]
    refine ⟨fun r hr => ?_, AForest.flatten_lft_strict_f f tid (some pk) (lvl + 1) (l + 1)⟩
    have := AForest.flatten_bounds_f f tid (some pk) (lvl + 1) (l + 1) r hr
    omega
theorem AForest.flatten_lft_strict_f :
    ∀ (f : AForest) (tid : Int) (par : Option Nat) (lvl l : Int),
      (f.flatten tid par lvl l).Pairwise (fun a b => a.lft < b.lft)
  | .anil, _, _, _, _ => List.Pairwise.nil
  | .acons t f, tid, par, lvl, l => by
    rw [AForest.flatten, List.pairwise_append]
    refine ⟨ATree.flatten_lft_strict_t t tid par lvl l,
      AForest.flatten_lft_strict_f f tid par lvl (l + 2 * (t.size : Int)), ?_⟩
    intro a ha b hb
    have hat := ATree.flatten_bounds_t t tid par lvl l a ha
    have hbf := AForest.flatten_bounds_f f tid par lvl (l + 2 * (t.size : Int)) b hb
    omega
end

mutual
theorem ATree.flatten_parent_mem_t :
    ∀ (t : ATree) (tid : Int) (par : Option Nat) (lvl l : Int),
      ∀ r ∈ t.flatten tid par lvl l,
        r.parentId = par ∨ ∃ k, r.parentId = some k ∧ k ∈ t.pks
  | .node pk f, tid, par, lvl, l => by
    intro r hr
    rcases List.mem_cons.1 hr with h | h
    · subst h; left; rfl
    · rcases AForest.flatten_parent_mem_f f tid (some pk) (lvl + 1) (l + 1) r h with
        h' | ⟨k, hk, hkm⟩
      · right; exact ⟨pk, h', by simp [ATree.pks]⟩
      · right; exact ⟨k, hk, by simp [ATree.pks, hkm]⟩
theorem AForest.flatten_parent_mem_f :
    ∀ (f : AForest) (tid : Int) (par : Option Nat) (lvl l : Int),
      ∀ r ∈ f.flatten tid par lvl l,
        r.parentId = par ∨ ∃ k, r.parentId = some k ∧ k ∈ f.pks
  | .anil, _, _, _, _ => by intro r hr; simp [AForest.flatten] at hr
  | .acons t f, tid, par, lvl, l => by
    intro r hr
    rcases List.mem_append.1 hr with h | h
    · rcases ATree.flatten_parent_mem_t t tid par lvl l r h with h' | ⟨k, hk, hkm⟩
      · left; exact h'
      · right; exact ⟨k, hk, by simp [AForest.pks, hkm]⟩
    · rcases AForest.flatten_parent_mem_f f tid par lvl (l + 2 * (t.size : Int)) r h with
        h' | ⟨k, hk, hkm⟩
      · left; exact h'
      · right; exact ⟨k, hk, by simp [AForest.pks, hkm]⟩
end

/-! ### The hooks' row transformers -/

/-- The combined effect on one row of the two range `UPDATE`s of the
pre-save hook's parent branch (the two statements touch disjoint columns,
so their sequential composition acts on each column independently). -/
def rowShiftUp (target tid : Int) (r : Row) : Row :=
  { r with
    rght := if target < r.rght ∧ r.tree_id = tid then r.rght + 2 else r.rght,
    lft := if target < r.lft ∧ r.tree_id = tid then r.lft + 2 else r.lft }

/-- The combined effect on one row of the two range `UPDATE`s of the
pre-delete hook. -/
def rowShiftDown (span bound tid : Int) (r : Row) : Row :=
  { r with
    rght := if bound < r.rght ∧ r.tree_id = tid then r.rght - span else r.rght,
    lft := if bound < r.lft ∧ r.tree_id = tid then r.lft - span else r.lft }

theorem incLft_incRght_eq_map (db : List Row) (target tid : Int) :
    incLftWhere (incRghtWhere db target tid) target tid =
      db.map (rowShiftUp target tid) := by
  simp only [incLftWhere, incRghtWhere, List.map_map]
  apply List.map_congr_left
  intro r _
  simp only [Function.comp]
  by_cases ht : r.tree_id = tid
  · subst ht
    by_cases ha : target < r.rght <;> by_cases hb : target < r.lft <;>
      simp [rowShiftUp, ha, hb]
  · simp [rowShiftUp, ht]

theorem decLft_decRght_eq_map (db : List Row) (span bound tid : Int) :
    decLftWhere (decRghtWhere db span bound tid) span bound tid =
      db.map (rowShiftDown span bound tid) := by
  simp only [decLftWhere, decRghtWhere, List.map_map]
  apply List.map_congr_left
  intro r _
  simp only [Function.comp]
  by_cases ht : r.tree_id = tid
  · subst ht
    by_cases ha : bound < r.rght <;> by_cases hb : bound < r.lft <;>
      simp [rowShiftDown, ha, hb]
  · simp [rowShiftDown, ht]

theorem rowShiftUp_eval (target tid : Int) (pk : Nat) (par : Option Nat)
    (lf rg lv : Int) :
    rowShiftUp target tid
        { pk := pk, parentId := par, lft := lf, rght := rg, tree_id := tid, level := lv } =
      { pk := pk, parentId := par, lft := if target < lf then lf + 2 else lf,
        rght := if target < rg then rg + 2 else rg, tree_id := tid, level := lv } := by
  simp [rowShiftUp]

theorem rowShiftDown_eval (span bound tid : Int) (pk : Nat) (par : Option Nat)
    (lf rg lv : Int) :
    rowShiftDown span bound tid
        { pk := pk, parentId := par, lft := lf, rght := rg, tree_id := tid, level := lv } =
      { pk := pk, parentId := par, lft := if bound < lf then lf - span else lf,
        rght := if bound < rg then rg - span else rg, tree_id := tid, level := lv } := by
  simp [rowShiftDown]

theorem rowShiftUp_id (target tid : Int) (r : Row)
    (h1 : r.rght ≤ target) (h2 : r.lft < r.rght) : rowShiftUp target tid r = r := by
  simp only [rowShiftUp]
  rw [if_neg (by omega), if_neg (by omega)]

theorem rowShiftUp_shift2 (target tid : Int) (r : Row)
    (h1 : target < r.lft) (h2 : r.lft < r.rght) (h3 : r.tree_id = tid) :
    rowShiftUp target tid r = shiftRow 2 r := by
  simp only [rowShiftUp, shiftRow]
  rw [if_pos ⟨by omega, h3⟩, if_pos ⟨by omega, h3⟩]

theorem rowShiftDown_id (bound tid span : Int) (r : Row)
    (h1 : r.rght ≤ bound) (h2 : r.lft < r.rght) : rowShiftDown span bound tid r = r := by
  simp only [rowShiftDown]
  rw [if_neg (by omega), if_neg (by omega)]

theorem rowShiftDown_shift2 (bound tid : Int) (r : Row)
    (h1 : bound < r.lft) (h2 : r.lft < r.rght) (h3 : r.tree_id = tid) :
    rowShiftDown 2 bound tid r = shiftRow (-2) r := by
  simp only [rowShiftDown, shiftRow]
  rw [if_pos ⟨by omega, h3⟩, if_pos ⟨by omega, h3⟩]
  simp only [Row.mk.injEq, true_and, and_true]
  omega

/-! ### Facts about `appendLeaf`, `addChild` and `remove` -/

theorem AForest.size_appendLeaf :
    ∀ (f : AForest) (n : Nat), (f.appendLeaf n).size = f.size + 1
  | .anil, _ => rfl
  | .acons t f, n => by
    simp only [AForest.appendLeaf, AForest.size, AForest.size_appendLeaf f n]
    omega

theorem AForest.pks_appendLeaf :
    ∀ (f : AForest) (n : Nat), (f.appendLeaf n).pks = f.pks ++ [n]
  | .anil, _ => rfl
  | .acons t f, n => by
    simp [AForest.appendLeaf, AForest.pks, AForest.pks_appendLeaf f n]

theorem AForest.flatten_appendLeaf :
    ∀ (f : AForest) (n : Nat) (tid : Int) (par : Option Nat) (lvl l : Int),
      (f.appendLeaf n).flatten tid par lvl l =
        f.flatten tid par lvl l ++
          [{ pk := n, parentId := par, lft := l + 2 * (f.size : Int),
             rght := l + 2 * (f.size : Int) + 1, tree_id := tid, level := lvl }]
  | .anil, n, tid, par, lvl, l => by
    simp [AForest.appendLeaf, AForest.flatten, ATree.flatten, ATree.size, AForest.size]
  | .acons t f, n, tid, par, lvl, l => by
    simp only [AForest.appendLeaf, AForest.flatten,
      AForest.flatten_appendLeaf f n tid par lvl (l + 2 * (t.size : Int)), AForest.size]
    have h1 : l + 2 * (t.size : Int) + 2 * (f.size : Int) =
        l + 2 * ((t.size + f.size : Nat) : Int) := by push_cast; omega
    rw [List.append_assoc, h1]

mutual
theorem ATree.addChild_not_mem_t :
    ∀ (t : ATree) (k n : Nat), k ∉ t.pks → t.addChild k n = t
  | .node pk f, k, n => by
    intro h
    simp only [ATree.pks, List.mem_cons, not_or] at h
    have hpk : ¬pk = k := fun hc => h.1 hc.symm
    simp only [ATree.addChild, if_neg hpk, AForest.addChild_not_mem_f f k n h.2]
theorem AForest.addChild_not_mem_f :
    ∀ (f : AForest) (k n : Nat), k ∉ f.pks → f.addChild k n = f
  | .anil, _, _ => fun _ => rfl
  | .acons t f, k, n => by
    intro h
    simp only [AForest.pks, List.mem_append, not_or] at h
    simp only [AForest.addChild, ATree.addChild_not_mem_t t k n h.1,
      AForest.addChild_not_mem_f f k n h.2]
end

mutual
theorem ATree.size_addChild_t :
    ∀ (t : ATree) (k n : Nat), k ∈ t.pks → t.pks.Nodup → (t.addChild k n).size = t.size + 1
  | .node pk f, k, n => by
    intro hm hnd
    simp only [ATree.pks, List.nodup_cons] at hnd
    by_cases hk : pk = k
    · simp only [ATree.addChild, if_pos hk, ATree.size, AForest.size_appendLeaf]
      omega
    · have hmf : k ∈ f.pks := by
        rcases List.mem_cons.1 hm with h | h
        · exact absurd h.symm hk
        · exact h
      simp only [ATree.addChild, if_neg hk, ATree.size,
        AForest.size_addChild_f f k n hmf hnd.2]
      omega
theorem AForest.size_addChild_f :
    ∀ (f : AForest) (k n : Nat), k ∈ f.pks → f.pks.Nodup → (f.addChild k n).size = f.size + 1
  | .anil, k, n => by intro hm _; simp [AForest.pks] at hm
  | .acons t f, k, n => by
    intro hm hnd
    simp only [AForest.pks, List.nodup_append] at hnd
    rcases List.mem_append.1 hm with h | h
    · have hnf : k ∉ f.pks := fun hc => hnd.2.2 h hc
      simp only [AForest.addChild, AForest.size, ATree.size_addChild_t t k n h hnd.1,
        AForest.addChild_not_mem_f f k n hnf]
      omega
    · have hnt : k ∉ t.pks := fun hc => hnd.2.2 hc h
      simp only [AForest.addChild, AForest.size, AForest.size_addChild_f f k n h hnd.2.1,
        ATree.addChild_not_mem_t t k n hnt]
      omega
end

mutual
theorem ATree.pks_addChild_t :
    ∀ (t : ATree) (k n : Nat), k ∈ t.pks → t.pks.Nodup →
      (t.addChild k n).pks.Perm (t.pks ++ [n])
  | .node pk f, k, n => by
    intro hm hnd
    simp only [ATree.pks, List.nodup_cons] at hnd
    by_cases hk : pk = k
    · simp only [ATree.addChild, if_pos hk, ATree.pks, AForest.pks_appendLeaf]
      exact List.Perm.refl _
    · have hmf : k ∈ f.pks := by
        rcases List.mem_cons.1 hm with h | h
        · exact absurd h.symm hk
        · exact h
      simp only [ATree.addChild, if_neg hk, ATree.pks]
      exact (AForest.pks_addChild_f f k n hmf hnd.2).cons pk
theorem AForest.pks_addChild_f :
    ∀ (f : AForest) (k n : Nat), k ∈ f.pks → f.pks.Nodup →
      (f.addChild k n).pks.Perm (f.pks ++ [n])
  | .anil, k, n => by intro hm _; simp [AForest.pks] at hm
  | .acons t f, k, n => by
    intro hm hnd
    simp only [AForest.pks, List.nodup_append] at hnd
    rcases List.mem_append.1 hm with h | h
    · have hnf : k ∉ f.pks := fun hc => hnd.2.2 h hc
      simp only [AForest.addChild, AForest.pks, AForest.addChild_not_mem_f f k n hnf]
      refine ((ATree.pks_addChild_t t k n h hnd.1).append_right _).trans ?_
      rw [List.append_assoc, List.append_assoc]
      exact List.Perm.append_left _ List.perm_append_comm
    · have hnt : k ∉ t.pks := fun hc => hnd.2.2 hc h
      simp only [AForest.addChild, AForest.pks, ATree.addChild_not_mem_t t k n hnt]
      rw [List.append_assoc]
      exact (AForest.pks_addChild_f f k n h hnd.2.1).append_left _
end

/-- The row the pre-save hook builds for a new leaf under parent row `p`
(with `target = p.rght - 1`, the assigned interval is
`[target + 1, target + 2] = [p.rght, p.rght + 1]`). -/
def childRow (p : Row) (newPk : Nat) (tid : Int) : Row :=
  { pk := newPk, parentId := some p.pk, lft := p.rght, rght := p.rght + 1,
    tree_id := tid, level := p.level + 1 }

mutual
theorem ATree.insert_flatten_t :
    ∀ (t : ATree) (tid : Int) (par : Option Nat) (lvl l : Int) (p : Row) (newPk : Nat),
      t.pks.Nodup → p ∈ t.flatten tid par lvl l →
      ((t.flatten tid par lvl l).map (rowShiftUp (p.rght - 1) tid) ++
          [childRow p newPk tid]).Perm
        ((t.addChild p.pk newPk).flatten tid par lvl l)
  | .node pk cs, tid, par, lvl, l, p, newPk => by
    intro hnd hp
    simp only [ATree.pks, List.nodup_cons] at hnd
    rcases List.mem_cons.1 hp with hroot | hinner
    · have hpk : p.pk = pk := by rw [hroot]
      have hprght : p.rght = l + 2 * (cs.size : Int) + 1 := by rw [hroot]
      have hplft : p.lft = l := by rw [hroot]
      have hplvl : p.level = lvl := by rw [hroot]
      have haddc : (ATree.node pk cs).addChild p.pk newPk =
          ATree.node pk (cs.appendLeaf newPk) := by
        simp [ATree.addChild, hpk]
      rw [haddc]
      simp only [ATree.flatten, List.map_cons, List.cons_append,
        AForest.flatten_appendLeaf, AForest.size_appendLeaf]
      have hgroot : rowShiftUp (p.rght - 1) tid
          { pk := pk, parentId := par, lft := l, rght := l + 2 * (cs.size : Int) + 1,
            tree_id := tid, level := lvl } =
          { pk := pk, parentId := par, lft := l,
            rght := l + 2 * ((cs.size + 1 : Nat) : Int) + 1,
            tree_id := tid, level := lvl } := by
        rw [rowShiftUp_eval, if_neg (show ¬(p.rght - 1 < l) from by omega),
          if_pos (show p.rght - 1 < l + 2 * (cs.size : Int) + 1 from by omega)]
        simp only [Row.mk.injEq, eq_self_iff_true, true_and, and_true]
        push_cast
        omega
      have hinnereq : (cs.flatten tid (some pk) (lvl + 1) (l + 1)).map
          (rowShiftUp (p.rght - 1) tid) = cs.flatten tid (some pk) (lvl + 1) (l + 1) := by
        rw [List.map_congr_left, List.map_id]
        intro r hr
        have hb := AForest.flatten_bounds_f cs tid (some pk) (lvl + 1) (l + 1) r hr
        exact rowShiftUp_id _ _ _ (by omega) hb.2.1
      have hleaf : childRow p newPk tid =
          { pk := newPk, parentId := some pk, lft := l + 1 + 2 * (cs.size : Int),
            rght := l + 1 + 2 * (cs.size : Int) + 1, tree_id := tid,
            level := lvl + 1 } := by
        simp only [childRow, Row.mk.injEq, hpk, hprght, hplvl, eq_self_iff_true,
          true_and, and_true]
        omega
      rw [hgroot, hinnereq, hleaf]
    · have hpkmem : p.pk ∈ cs.pks := by
        have hm := List.mem_map_of_mem Row.pk hinner
        rwa [AForest.flatten_pks_f] at hm
      have hpkne : ¬pk = p.pk := fun hc => hnd.1 (hc ▸ hpkmem)
      have haddc : (ATree.node pk cs).addChild p.pk newPk =
          ATree.node pk (cs.addChild p.pk newPk) := by
        simp [ATree.addChild, hpkne]
      rw [haddc]
      have hsz : (cs.addChild p.pk newPk).size = cs.size + 1 :=
        AForest.size_addChild_f cs p.pk newPk hpkmem hnd.2
      have hbp := AForest.flatten_bounds_f cs tid (some pk) (lvl + 1) (l + 1) p hinner
      simp only [ATree.flatten, List.map_cons, List.cons_append, hsz]
      have hgroot : rowShiftUp (p.rght - 1) tid
          { pk := pk, parentId := par, lft := l, rght := l + 2 * (cs.size : Int) + 1,
            tree_id := tid, level := lvl } =
          { pk := pk, parentId := par, lft := l,
            rght := l + 2 * ((cs.size + 1 : Nat) : Int) + 1,
            tree_id := tid, level := lvl } := by
        rw [rowShiftUp_eval, if_neg (show ¬(p.rght - 1 < l) from by omega),
          if_pos (show p.rght - 1 < l + 2 * (cs.size : Int) + 1 from by omega)]
        simp only [Row.mk.injEq, eq_self_iff_true, true_and, and_true]
        push_cast
        omega
      rw [hgroot]
      exact List.Perm.cons _
        (AForest.insert_flatten_f cs tid (some pk) (lvl + 1) (l + 1) p newPk hnd.2 hinner)
theorem AForest.insert_flatten_f :
    ∀ (f : AForest) (tid : Int) (par : Option Nat) (lvl l : Int) (p : Row) (newPk : Nat),
      f.pks.Nodup → p ∈ f.flatten tid par lvl l →
      ((f.flatten tid par lvl l).map (rowShiftUp (p.rght - 1) tid) ++
          [childRow p newPk tid]).Perm
        ((f.addChild p.pk newPk).flatten tid par lvl l)
  | .anil, tid, par, lvl, l, p, newPk => by
    intro _ hp
    simp [AForest.flatten] at hp
  | .acons t f, tid, par, lvl, l, p, newPk => by
    intro hnd hp
    simp only [AForest.pks, List.nodup_append] at hnd
    simp only [AForest.flatten, AForest.addChild, List.map_append]
    rcases List.mem_append.1 hp with hmt | hmf
    · have hpkt : p.pk ∈ t.pks := by
        have hm := List.mem_map_of_mem Row.pk hmt
        rwa [ATree.flatten_pks_t] at hm
      have hpknf : p.pk ∉ f.pks := fun hc => hnd.2.2 hpkt hc
      have hfid : f.addChild p.pk newPk = f := AForest.addChild_not_mem_f f p.pk newPk hpknf
      have hszt : (t.addChild p.pk newPk).size = t.size + 1 :=
        ATree.size_addChild_t t p.pk newPk hpkt hnd.1
      rw [hfid, hszt]
      have hbp := ATree.flatten_bounds_t t tid par lvl l p hmt
      have hffshift : (f.flatten tid par lvl (l + 2 * (t.size : Int))).map
          (rowShiftUp (p.rght - 1) tid) =
          f.flatten tid par lvl (l + 2 * ((t.size + 1 : Nat) : Int)) := by
        have hshift := AForest.flatten_shift_f f tid par lvl (l + 2 * (t.size : Int)) 2
        rw [show l + 2 * ((t.size + 1 : Nat) : Int) = l + 2 * (t.size : Int) + 2 from by
          push_cast; omega, hshift]
        apply List.map_congr_left
        intro r hr
        have hb := AForest.flatten_bounds_f f tid par lvl (l + 2 * (t.size : Int)) r hr
        have hid := AForest.flatten_tree_id_f f tid par lvl (l + 2 * (t.size : Int)) r hr
        exact rowShiftUp_shift2 _ _ _ (by omega) hb.2.1 hid
      rw [hffshift]
      refine List.Perm.trans ?_
        ((ATree.insert_flatten_t t tid par lvl l p newPk hnd.1 hmt).append_right _)
      rw [List.append_assoc, List.append_assoc]
      exact List.Perm.append_left _ List.perm_append_comm
    · have hpkf : p.pk ∈ f.pks := by
        have hm := List.mem_map_of_mem Row.pk hmf
        rwa [AForest.flatten_pks_f] at hm
      have hpknt : p.pk ∉ t.pks := fun hc => hnd.2.2 hc hpkf
      have htid : t.addChild p.pk newPk = t := ATree.addChild_not_mem_t t p.pk newPk hpknt
      rw [htid]
      have hbp := AForest.flatten_bounds_f f tid par lvl (l + 2 * (t.size : Int)) p hmf
      have htfid : (t.flatten tid par lvl l).map (rowShiftUp (p.rght - 1) tid) =
          t.flatten tid par lvl l := by
        rw [List.map_congr_left, List.map_id]
        intro r hr
        have hb := ATree.flatten_bounds_t t tid par lvl l r hr
        exact rowShiftUp_id _ _ _ (by omega) hb.2.1
      rw [htfid, List.append_assoc]
      exact List.Perm.append_left _
        (AForest.insert_flatten_f f tid par lvl (l + 2 * (t.size : Int)) p newPk hnd.2.1 hmf)
end

mutual
theorem ATree.removeIn_not_mem :
    ∀ (t : ATree) (k : Nat), k ∉ t.pks → t.removeIn k = t
  | .node pk f, k => by
    intro h
    simp only [ATree.pks, List.mem_cons, not_or] at h
    simp only [ATree.removeIn, AForest.remove_not_mem f k h.2]
theorem AForest.remove_not_mem :
    ∀ (f : AForest) (k : Nat), k ∉ f.pks → f.remove k = f
  | .anil, _ => fun _ => rfl
  | .acons t f, k => by
    intro h
    simp only [AForest.pks, List.mem_append, not_or] at h
    have hr : t.rootPk ≠ k := by
      intro hc
      apply h.1
      cases t with
      | node pk cs => simp only [ATree.rootPk] at hc; simp [ATree.pks, hc]
    simp only [AForest.remove, if_neg hr, ATree.removeIn_not_mem t k h.1,
      AForest.remove_not_mem f k h.2]
end

mutual
theorem ATree.pks_removeIn :
    ∀ (t : ATree) (k : Nat), (t.removeIn k).pks.Sublist t.pks
  | .node pk f, k => by
    simp only [ATree.removeIn, ATree.pks]
    exact (AForest.pks_remove f k).cons₂ pk
theorem AForest.pks_remove :
    ∀ (f : AForest) (k : Nat), (f.remove k).pks.Sublist f.pks
  | .anil, _ => List.Sublist.refl _
  | .acons t f, k => by
    simp only [AForest.remove]
    by_cases hr : t.rootPk = k
    · rw [if_pos hr]
      simp only [AForest.pks]
      exact (List.sublist_append_right _ _)
    · rw [if_neg hr]
      simp only [AForest.pks]
      exact (ATree.pks_removeIn t k).append (AForest.pks_remove f k)
end

theorem shiftRow_shiftRow (a b : Int) (r : Row) :
    shiftRow a (shiftRow b r) = shiftRow (a + b) r := by
  simp only [shiftRow, Row.mk.injEq, eq_self_iff_true, true_and, and_true]
  omega

theorem shiftRow_zero (r : Row) : shiftRow 0 r = r := by
  simp [shiftRow]

theorem rowShiftUp_pk (target tid : Int) (r : Row) :
    (rowShiftUp target tid r).pk = r.pk := rfl

theorem rowShiftDown_pk (span bound tid : Int) (r : Row) :
    (rowShiftDown span bound tid r).pk = r.pk := rfl

theorem ATree.size_pos : ∀ t : ATree, 1 ≤ t.size
  | .node _ f => by simp [ATree.size]

theorem ATree.rootPk_mem : ∀ t : ATree, t.rootPk ∈ t.pks
  | .node pk f => by simp [ATree.rootPk, ATree.pks]

theorem AForest.size_eq_zero : ∀ f : AForest, f.size = 0 → f = .anil
  | .anil, _ => rfl
  | .acons t f, h => by
    exfalso
    have := ATree.size_pos t
    simp only [AForest.size] at h
    omega

/-- A row of a tree's flattening carrying the root's primary key is the
root row: it starts at `l` and closes the whole tree's interval. -/
theorem ATree.root_row_facts :
    ∀ (t : ATree) (tid : Int) (par : Option Nat) (lvl l : Int) (x : Row),
      t.pks.Nodup → x ∈ t.flatten tid par lvl l → x.pk = t.rootPk →
      x.lft = l ∧ x.rght = l + 2 * (t.size : Int) - 1
  | .node pk cs, tid, par, lvl, l, x => by
    intro hnd hx hpk
    simp only [ATree.pks, List.nodup_cons] at hnd
    simp only [ATree.rootPk] at hpk
    rcases List.mem_cons.1 hx with hr | hr
    · constructor
      · rw [hr]
      · rw [hr]
        simp only [ATree.size]
        push_cast
        omega
    · exfalso
      apply hnd.1
      have hm := List.mem_map_of_mem Row.pk hr
      rw [AForest.flatten_pks_f] at hm
      rwa [hpk] at hm

mutual
theorem ATree.size_removeIn :
    ∀ (t : ATree) (tid : Int) (par : Option Nat) (lvl l : Int) (x : Row),
      t.pks.Nodup → x ∈ t.flatten tid par lvl l → x.rght = x.lft + 1 →
      x.pk ≠ t.rootPk → (t.removeIn x.pk).size + 1 = t.size
  | .node pk cs, tid, par, lvl, l, x => by
    intro hnd hx hleaf hne
    simp only [ATree.pks, List.nodup_cons] at hnd
    simp only [ATree.rootPk] at hne
    rcases List.mem_cons.1 hx with hr | hr
    · exfalso; apply hne; rw [hr]
    · simp only [ATree.removeIn, ATree.size]
      have := AForest.size_remove cs tid (some pk) (lvl + 1) (l + 1) x hnd.2 hr hleaf
      omega
theorem AForest.size_remove :
    ∀ (f : AForest) (tid : Int) (par : Option Nat) (lvl l : Int) (x : Row),
      f.pks.Nodup → x ∈ f.flatten tid par lvl l → x.rght = x.lft + 1 →
      (f.remove x.pk).size + 1 = f.size
  | .anil, tid, par, lvl, l, x => by
    intro _ hx _
    simp [AForest.flatten] at hx
  | .acons t f, tid, par, lvl, l, x => by
    intro hnd hx hleaf
    simp only [AForest.pks, List.nodup_append] at hnd
    rcases List.mem_append.1 hx with hm | hm
    · by_cases hr : t.rootPk = x.pk
      · have hfacts := ATree.root_row_facts t tid par lvl l x hnd.1 hm hr.symm
        have hsz1 : t.size = 1 := by omega
        simp only [AForest.remove, if_pos hr, AForest.size, hsz1]
        omega
      · have := ATree.size_removeIn t tid par lvl l x hnd.1 hm hleaf
          (fun hc => hr hc.symm)
        have hpkt : x.pk ∈ t.pks := by
          have h := List.mem_map_of_mem Row.pk hm
          rwa [ATree.flatten_pks_t] at h
        have hnf : x.pk ∉ f.pks := fun hc => hnd.2.2 hpkt hc
        simp only [AForest.remove, if_neg hr, AForest.size,
          AForest.remove_not_mem f x.pk hnf]
        omega
    · have hpkf : x.pk ∈ f.pks := by
        have h := List.mem_map_of_mem Row.pk hm
        rwa [AForest.flatten_pks_f] at h
      have hnt : x.pk ∉ t.pks := fun hc => hnd.2.2 hc hpkf
      have hr : t.rootPk ≠ x.pk := by
        intro hc
        exact hnt (hc ▸ ATree.rootPk_mem t)
      have := AForest.size_remove f tid par lvl (l + 2 * (t.size : Int)) x hnd.2.1 hm hleaf
      simp only [AForest.remove, if_neg hr, AForest.size,
        ATree.removeIn_not_mem t x.pk hnt]
      omega
end

mutual
theorem ATree.delete_flatten_t :
    ∀ (t : ATree) (tid : Int) (par : Option Nat) (lvl l : Int) (x : Row),
      t.pks.Nodup → x ∈ t.flatten tid par lvl l → x.rght = x.lft + 1 →
      x.pk ≠ t.rootPk →
      (((t.flatten tid par lvl l).map (rowShiftDown 2 x.rght tid)).filter
          (fun r => r.pk ≠ x.pk)).Perm
        ((t.removeIn x.pk).flatten tid par lvl l)
  | .node pk cs, tid, par, lvl, l, x => by
    intro hnd hx hleaf hne
    simp only [ATree.pks, List.nodup_cons] at hnd
    simp only [ATree.rootPk] at hne
    rcases List.mem_cons.1 hx with hr | hinner
    · exfalso; apply hne; rw [hr]
    · have hbx := AForest.flatten_bounds_f cs tid (some pk) (lvl + 1) (l + 1) x hinner
      have hszr := AForest.size_remove cs tid (some pk) (lvl + 1) (l + 1) x hnd.2
        hinner hleaf
      simp only [ATree.removeIn, ATree.flatten, List.map_cons]
      rw [List.filter_cons_of_pos (by simp [rowShiftDown_pk]; exact fun hc => hne hc.symm)]
      have hgroot : rowShiftDown 2 x.rght tid
          { pk := pk, parentId := par, lft := l, rght := l + 2 * (cs.size : Int) + 1,
            tree_id := tid, level := lvl } =
          { pk := pk, parentId := par, lft := l,
            rght := l + 2 * ((cs.remove x.pk).size : Int) + 1,
            tree_id := tid, level := lvl } := by
        rw [rowShiftDown_eval, if_neg (show ¬(x.rght < l) from by omega),
          if_pos (show x.rght < l + 2 * (cs.size : Int) + 1 from by omega)]
        simp only [Row.mk.injEq, eq_self_iff_true, true_and, and_true]
        omega
      rw [hgroot]
      exact List.Perm.cons _
        (AForest.delete_flatten_f cs tid (some pk) (lvl + 1) (l + 1) x hnd.2 hinner hleaf)
theorem AForest.delete_flatten_f :
    ∀ (f : AForest) (tid : Int) (par : Option Nat) (lvl l : Int) (x : Row),
      f.pks.Nodup → x ∈ f.flatten tid par lvl l → x.rght = x.lft + 1 →
      (((f.flatten tid par lvl l).map (rowShiftDown 2 x.rght tid)).filter
          (fun r => r.pk ≠ x.pk)).Perm
        ((f.remove x.pk).flatten tid par lvl l)
  | .anil, tid, par, lvl, l, x => by
    intro _ hx _
    simp [AForest.flatten] at hx
  | .acons t f, tid, par, lvl, l, x => by
    intro hnd hx hleaf
    simp only [AForest.pks, List.nodup_append] at hnd
    simp only [AForest.flatten, List.map_append, List.filter_append]
    rcases List.mem_append.1 hx with hm | hm
    · have hpkt : x.pk ∈ t.pks := by
        have h := List.mem_map_of_mem Row.pk hm
        rwa [ATree.flatten_pks_t] at h
      have hnf : x.pk ∉ f.pks := fun hc => hnd.2.2 hpkt hc
      have hbx := ATree.flatten_bounds_t t tid par lvl l x hm
      by_cases hr : t.rootPk = x.pk
      · have hfacts := ATree.root_row_facts t tid par lvl l x hnd.1 hm hr.symm
        have hts1 : t.size = 1 := by omega
        have hff : ((f.flatten tid par lvl (l + 2 * (t.size : Int))).map
            (rowShiftDown 2 x.rght tid)).filter (fun r => r.pk ≠ x.pk) =
            f.flatten tid par lvl l := by
          have hpos : l + 2 * (t.size : Int) = l + 2 := by rw [hts1]; push_cast; omega
          rw [hpos, AForest.flatten_shift_f f tid par lvl l 2, List.map_map]
          have hmapid : (f.flatten tid par lvl l).map
              (rowShiftDown 2 x.rght tid ∘ shiftRow 2) = f.flatten tid par lvl l := by
            rw [List.map_congr_left, List.map_id]
            intro r hr2
            have hb := AForest.flatten_bounds_f f tid par lvl l r hr2
            have hid := AForest.flatten_tree_id_f f tid par lvl l r hr2
            show rowShiftDown 2 x.rght tid (shiftRow 2 r) = r
            rw [rowShiftDown_shift2 _ _ _ (by simp [shiftRow]; omega)
              (by simp [shiftRow]; omega) (by simp [shiftRow, hid])]
            rw [shiftRow_shiftRow]
            exact shiftRow_zero r
          rw [hmapid]
          apply List.filter_eq_self.2
          intro r hr2
          have hpkr : r.pk ∈ f.pks := by
            have h := List.mem_map_of_mem Row.pk hr2
            rwa [AForest.flatten_pks_f] at h
          simp
          exact fun hc => hnf (hc ▸ hpkr)
        have htf : ((t.flatten tid par lvl l).map
            (rowShiftDown 2 x.rght tid)).filter (fun r => r.pk ≠ x.pk) = [] := by
          cases t with
          | node pk cs =>
            have hcs : cs = .anil := by
              apply AForest.size_eq_zero
              have := ATree.size_pos
              simp only [ATree.size] at hts1
              omega
            subst hcs
            simp only [ATree.rootPk] at hr
            simp only [ATree.flatten, AForest.flatten, AForest.size, List.map_cons,
              List.map_nil]
            rw [List.filter_cons_of_neg (by simp [rowShiftDown_pk, hr])]
            rfl
        rw [htf, hff]
        have hrm : (AForest.acons t f).remove x.pk = f := by
          simp [AForest.remove, hr]
        rw [hrm]
        exact List.Perm.refl _
      · have hszr := ATree.size_removeIn t tid par lvl l x hnd.1 hm hleaf
          (fun hc => hr hc.symm)
        have hrm : (AForest.acons t f).remove x.pk =
            AForest.acons (t.removeIn x.pk) f := by
          simp [AForest.remove, hr, AForest.remove_not_mem f x.pk hnf]
        rw [hrm]
        simp only [AForest.flatten]
        have hff : ((f.flatten tid par lvl (l + 2 * (t.size : Int))).map
            (rowShiftDown 2 x.rght tid)).filter (fun r => r.pk ≠ x.pk) =
            f.flatten tid par lvl (l + 2 * ((t.removeIn x.pk).size : Int)) := by
          have hpos : l + 2 * (t.size : Int) =
              (l + 2 * ((t.removeIn x.pk).size : Int)) + 2 := by omega
          rw [hpos, AForest.flatten_shift_f f tid par lvl
            (l + 2 * ((t.removeIn x.pk).size : Int)) 2, List.map_map]
          have hmapid : (f.flatten tid par lvl
              (l + 2 * ((t.removeIn x.pk).size : Int))).map
              (rowShiftDown 2 x.rght tid ∘ shiftRow 2) =
              f.flatten tid par lvl (l + 2 * ((t.removeIn x.pk).size : Int)) := by
            rw [List.map_congr_left, List.map_id]
            intro r hr2
            have hb := AForest.flatten_bounds_f f tid par lvl
              (l + 2 * ((t.removeIn x.pk).size : Int)) r hr2
            have hid := AForest.flatten_tree_id_f f tid par lvl
              (l + 2 * ((t.removeIn x.pk).size : Int)) r hr2
            show rowShiftDown 2 x.rght tid (shiftRow 2 r) = r
            rw [rowShiftDown_shift2 _ _ _ (by simp [shiftRow]; omega)
              (by simp [shiftRow]; omega) (by simp [shiftRow, hid])]
            rw [shiftRow_shiftRow]
            exact shiftRow_zero r
          rw [hmapid]
          apply List.filter_eq_self.2
          intro r hr2
          have hpkr : r.pk ∈ f.pks := by
            have h := List.mem_map_of_mem Row.pk hr2
            rwa [AForest.flatten_pks_f] at h
          simp
          exact fun hc => hnf (hc ▸ hpkr)
        rw [hff]
        exact (ATree.delete_flatten_t t tid par lvl l x hnd.1 hm hleaf
          (fun hc => hr hc.symm)).append (List.Perm.refl _)
    · have hpkf : x.pk ∈ f.pks := by
        have h := List.mem_map_of_mem Row.pk hm
        rwa [AForest.flatten_pks_f] at h
      have hnt : x.pk ∉ t.pks := fun hc => hnd.2.2 hc hpkf
      have hr : t.rootPk ≠ x.pk := fun hc => hnt (hc ▸ ATree.rootPk_mem t)
      have hbx := AForest.flatten_bounds_f f tid par lvl (l + 2 * (t.size : Int)) x hm
      have hrm : (AForest.acons t f).remove x.pk =
          AForest.acons t (f.remove x.pk) := by
        simp [AForest.remove, hr, ATree.removeIn_not_mem t x.pk hnt]
      rw [hrm]
      simp only [AForest.flatten]
      have htf : ((t.flatten tid par lvl l).map
          (rowShiftDown 2 x.rght tid)).filter (fun r => r.pk ≠ x.pk) =
          t.flatten tid par lvl l := by
        have hmapid : (t.flatten tid par lvl l).map (rowShiftDown 2 x.rght tid) =
            t.flatten tid par lvl l := by
          rw [List.map_congr_left, List.map_id]
          intro r hr2
          have hb := ATree.flatten_bounds_t t tid par lvl l r hr2
          exact rowShiftDown_id _ _ _ _ (by omega) hb.2.1
        rw [hmapid]
        apply List.filter_eq_self.2
        intro r hr2
        have hpkr : r.pk ∈ t.pks := by
          have h := List.mem_map_of_mem Row.pk hr2
          rwa [ATree.flatten_pks_t] at h
        simp
        exact fun hc => hnt (hc ▸ hpkr)
      rw [htf]
      exact (List.Perm.refl _).append
        (AForest.delete_flatten_f f tid par lvl (l + 2 * (t.size : Int)) x hnd.2.1 hm hleaf)
end

mutual
theorem ATree.flatten_span_t :
    ∀ (t : ATree) (tid : Int) (par : Option Nat) (lvl l : Int),
      ∀ r ∈ t.flatten tid par lvl l, ∃ s : Nat, 1 ≤ s ∧ r.rght - r.lft = 2 * (s : Int) - 1
  | .node pk cs, tid, par, lvl, l => by
    intro r hr
    rcases List.mem_cons.1 hr with h | h
    · refine ⟨cs.size + 1, by omega, ?_⟩
      rw [h]
      push_cast
      omega
    · exact AForest.flatten_span_f cs tid (some pk) (lvl + 1) (l + 1) r h
theorem AForest.flatten_span_f :
    ∀ (f : AForest) (tid : Int) (par : Option Nat) (lvl l : Int),
      ∀ r ∈ f.flatten tid par lvl l, ∃ s : Nat, 1 ≤ s ∧ r.rght - r.lft = 2 * (s : Int) - 1
  | .anil, _, _, _, _ => by intro r hr; simp [AForest.flatten] at hr
  | .acons t f, tid, par, lvl, l => by
    intro r hr
    rcases List.mem_append.1 hr with h | h
    · exact ATree.flatten_span_t t tid par lvl l r h
    · exact AForest.flatten_span_f f tid par lvl (l + 2 * (t.size : Int)) r h
end

/-! ### The nested-set invariants P1 to P4 -/

/-- Ancestry by parent-chain traversal over the rows of a table: `Anc db a b`
holds when following `parentId` links upward from `b` (through rows of `db`)
reaches a row carrying `a`'s primary key. -/
inductive Anc (db : List Row) : Row → Row → Prop where
  | parent : ∀ {a b : Row}, b ∈ db → b.parentId = some a.pk → Anc db a b
  | grand : ∀ {a c b : Row}, c ∈ db → c.parentId = some a.pk → Anc db c b → Anc db a b

/-- P1 (interval validity): every row has `lft < rght` with an odd span. -/
def IntervalsValid (db : List Row) : Prop :=
  ∀ r ∈ db, r.lft < r.rght ∧ Odd (r.rght - r.lft)

/-- P2 (containment iff ancestry): within one tree, strict interval
containment coincides with parent-chain ancestry. -/
def ContainmentIffAncestry (db : List Row) : Prop :=
  ∀ a ∈ db, ∀ b ∈ db, a.tree_id = b.tree_id →
    ((a.lft < b.lft ∧ b.rght < a.rght) ↔ Anc db a b)

/-- P3 (count correctness): the O(1) descendant count agrees with the
number of rows the descendants query returns. -/
def CountsCorrect (db : List Row) : Prop :=
  ∀ r ∈ db, get_descendant_count r = ((get_descendants db r false).length : Int)

/-- P4 (preorder): the rows of tree `tid`, ordered by `lft`, are exactly the
depth-first, parent-before-children flattening of an abstract forest that
models the table fragment. -/
def PreorderCorrect (db : List Row) (tid : Int) : Prop :=
  ∃ f : AForest,
    (db.filter (fun r => r.tree_id = tid)).Perm (f.flatten tid none 0 1) ∧
      (db.filter (fun r => r.tree_id = tid)).insertionSort lftLE =
        f.flatten tid none 0 1

theorem Anc.mono {db db' : List Row} (hsub : ∀ r, r ∈ db → r ∈ db') {a b : Row}
    (h : Anc db a b) : Anc db' a b := by
  induction h with
  | parent hb hp => exact Anc.parent (hsub _ hb) hp
  | grand hc hp _ ih => exact Anc.grand (hsub _ hc) hp ih

theorem Anc.congr {db db' : List Row} (hiff : ∀ r, r ∈ db ↔ r ∈ db') {a b : Row}
    (h : Anc db a b) : Anc db' a b :=
  h.mono fun r hr => (hiff r).1 hr

mutual
theorem ATree.parent_contain_t :
    ∀ (t : ATree) (tid : Int) (par : Option Nat) (lvl l : Int),
      t.pks.Nodup → (∀ k, par = some k → k ∉ t.pks) →
      ∀ a ∈ t.flatten tid par lvl l, ∀ b ∈ t.flatten tid par lvl l,
        b.parentId = some a.pk → a.lft < b.lft ∧ b.rght < a.rght
  | .node pk cs, tid, par, lvl, l => by
    intro hnd hfresh a ha b hb hpab
    simp only [ATree.pks, List.nodup_cons] at hnd
    have hpks : ∀ r ∈ cs.flatten tid (some pk) (lvl + 1) (l + 1), r.pk ∈ cs.pks := by
      intro r hr
      have h := List.mem_map_of_mem Row.pk hr
      rwa [AForest.flatten_pks_f] at h
    rcases List.mem_cons.1 ha with ha' | ha' <;> rcases List.mem_cons.1 hb with hb' | hb'
    · exfalso
      have hbpar : b.parentId = par := by rw [hb']
      have hapk : a.pk = pk := by rw [ha']
      rw [hbpar, hapk] at hpab
      exact hfresh pk hpab (by simp [ATree.pks])
    · have hbb := AForest.flatten_bounds_f cs tid (some pk) (lvl + 1) (l + 1) b hb'
      have halft : a.lft = l := by rw [ha']
      have harght : a.rght = l + 2 * (cs.size : Int) + 1 := by rw [ha']
      exact ⟨by omega, by omega⟩
    · exfalso
      have hbpar : b.parentId = par := by rw [hb']
      rw [hbpar] at hpab
      exact hfresh a.pk hpab
        (by simp only [ATree.pks, List.mem_cons]; exact Or.inr (hpks a ha'))
    · exact AForest.parent_contain_f cs tid (some pk) (lvl + 1) (l + 1) hnd.2
        (fun k hk => by
          rw [Option.some.injEq] at hk
          exact hk ▸ hnd.1) a ha' b hb' hpab
theorem AForest.parent_contain_f :
    ∀ (f : AForest) (tid : Int) (par : Option Nat) (lvl l : Int),
      f.pks.Nodup → (∀ k, par = some k → k ∉ f.pks) →
      ∀ a ∈ f.flatten tid par lvl l, ∀ b ∈ f.flatten tid par lvl l,
        b.parentId = some a.pk → a.lft < b.lft ∧ b.rght < a.rght
  | .anil, _, _, _, _ => by intro _ _ a ha; simp [AForest.flatten] at ha
  | .acons t f, tid, par, lvl, l => by
    intro hnd hfresh a ha b hb hpab
    simp only [AForest.pks, List.nodup_append] at hnd
    have hpkt : ∀ r ∈ t.flatten tid par lvl l, r.pk ∈ t.pks := by
      intro r hr
      have h := List.mem_map_of_mem Row.pk hr
      rwa [ATree.flatten_pks_t] at h
    have hpkf : ∀ r ∈ f.flatten tid par lvl (l + 2 * (t.size : Int)), r.pk ∈ f.pks := by
      intro r hr
      have h := List.mem_map_of_mem Row.pk hr
      rwa [AForest.flatten_pks_f] at h
    rcases List.mem_append.1 ha with ha' | ha' <;> rcases List.mem_append.1 hb with hb' | hb'
    · exact ATree.parent_contain_t t tid par lvl l hnd.1
        (fun k hk hmem => hfresh k hk
          (by simp only [AForest.pks, List.mem_append]; exact Or.inl hmem)) a ha' b hb' hpab
    · exfalso
      rcases AForest.flatten_parent_mem_f f tid par lvl (l + 2 * (t.size : Int)) b hb'
        with hcase | ⟨k, hk1, hk2⟩
      · have hpar : par = some a.pk := hcase.symm.trans hpab
        exact hfresh a.pk hpar
          (by simp only [AForest.pks, List.mem_append]; exact Or.inl (hpkt a ha'))
      · have hkeq : k = a.pk := Option.some.inj (hk1.symm.trans hpab)
        exact hnd.2.2 (hpkt a ha') (hkeq ▸ hk2)
    · exfalso
      rcases ATree.flatten_parent_mem_t t tid par lvl l b hb' with hcase | ⟨k, hk1, hk2⟩
      · have hpar : par = some a.pk := hcase.symm.trans hpab
        exact hfresh a.pk hpar
          (by simp only [AForest.pks, List.mem_append]; exact Or.inr (hpkf a ha'))
      · have hkeq : k = a.pk := Option.some.inj (hk1.symm.trans hpab)
        exact hnd.2.2 (hkeq ▸ hk2) (hpkf a ha')
    · exact AForest.parent_contain_f f tid par lvl (l + 2 * (t.size : Int)) hnd.2.1
        (fun k hk hmem => hfresh k hk
          (by simp only [AForest.pks, List.mem_append]; exact Or.inr hmem)) a ha' b hb' hpab
end

theorem AForest.anc_contain (f : AForest) (tid : Int) (par : Option Nat) (lvl l : Int)
    (hnd : f.pks.Nodup) (hfresh : ∀ k, par = some k → k ∉ f.pks) (a b : Row)
    (h : Anc (f.flatten tid par lvl l) a b) (ha : a ∈ f.flatten tid par lvl l) :
    a.lft < b.lft ∧ b.rght < a.rght := by
  induction h with
  | parent hb hp =>
    exact AForest.parent_contain_f f tid par lvl l hnd hfresh _ ha _ hb hp
  | grand hc hp _ ih =>
    have h1 := AForest.parent_contain_f f tid par lvl l hnd hfresh _ ha _ hc hp
    have h2 := ih hc
    exact ⟨by omega, by omega⟩

mutual
theorem ATree.anc_all_t :
    ∀ (t : ATree) (tid : Int) (k : Nat) (lvl l : Int) (db : List Row),
      (∀ r ∈ t.flatten tid (some k) lvl l, r ∈ db) →
      ∀ b ∈ t.flatten tid (some k) lvl l, ∀ a : Row, a.pk = k → Anc db a b
  | .node pk cs, tid, k, lvl, l, db => by
    intro hsub b hb a ha
    rcases List.mem_cons.1 hb with hb' | hb'
    · refine Anc.parent (hsub b hb) ?_
      rw [hb', ha]
    · have hrootmem : ({ pk := pk, parentId := some k, lft := l, rght := l + 2 * (cs.size : Int) + 1, tree_id := tid, level := lvl } : Row) ∈ db :=
        hsub _ (List.mem_cons_self _ _)
      refine Anc.grand hrootmem (by rw [ha]) ?_
      exact AForest.anc_all_f cs tid pk (lvl + 1) (l + 1) db
        (fun r hr => hsub r (List.mem_cons_of_mem _ hr)) b hb' _ rfl
theorem AForest.anc_all_f :
    ∀ (f : AForest) (tid : Int) (k : Nat) (lvl l : Int) (db : List Row),
      (∀ r ∈ f.flatten tid (some k) lvl l, r ∈ db) →
      ∀ b ∈ f.flatten tid (some k) lvl l, ∀ a : Row, a.pk = k → Anc db a b
  | .anil, tid, k, lvl, l, db => by intro _ b hb; simp [AForest.flatten] at hb
  | .acons t f, tid, k, lvl, l, db => by
    intro hsub b hb a ha
    rcases List.mem_append.1 hb with hb' | hb'
    · exact ATree.anc_all_t t tid k lvl l db
        (fun r hr => hsub r (List.mem_append_left _ hr)) b hb' a ha
    · exact AForest.anc_all_f f tid k lvl (l + 2 * (t.size : Int)) db
        (fun r hr => hsub r (List.mem_append_right _ hr)) b hb' a ha
end

mutual
theorem ATree.contain_anc_t :
    ∀ (t : ATree) (tid : Int) (par : Option Nat) (lvl l : Int) (db : List Row),
      (∀ r ∈ t.flatten tid par lvl l, r ∈ db) →
      ∀ a ∈ t.flatten tid par lvl l, ∀ b ∈ t.flatten tid par lvl l,
        a.lft < b.lft → b.rght < a.rght → Anc db a b
  | .node pk cs, tid, par, lvl, l, db => by
    intro hsub a ha b hb h1 h2
    rcases List.mem_cons.1 ha with ha' | ha' <;> rcases List.mem_cons.1 hb with hb' | hb'
    · exfalso
      have e1 : a.lft = l := by rw [ha']
      have e2 : b.lft = l := by rw [hb']
      omega
    · have hapk : a.pk = pk := by rw [ha']
      exact AForest.anc_all_f cs tid pk (lvl + 1) (l + 1) db
        (fun r hr => hsub r (List.mem_cons_of_mem _ hr)) b hb' a hapk
    · exfalso
      have e1 : b.rght = l + 2 * (cs.size : Int) + 1 := by rw [hb']
      have hba := AForest.flatten_bounds_f cs tid (some pk) (lvl + 1) (l + 1) a ha'
      omega
    · exact AForest.contain_anc_f cs tid (some pk) (lvl + 1) (l + 1) db
        (fun r hr => hsub r (List.mem_cons_of_mem _ hr)) a ha' b hb' h1 h2
theorem AForest.contain_anc_f :
    ∀ (f : AForest) (tid : Int) (par : Option Nat) (lvl l : Int) (db : List Row),
      (∀ r ∈ f.flatten tid par lvl l, r ∈ db) →
      ∀ a ∈ f.flatten tid par lvl l, ∀ b ∈ f.flatten tid par lvl l,
        a.lft < b.lft → b.rght < a.rght → Anc db a b
  | .anil, tid, par, lvl, l, db => by intro _ a ha; simp [AForest.flatten] at ha
  | .acons t f, tid, par, lvl, l, db => by
    intro hsub a ha b hb h1 h2
    rcases List.mem_append.1 ha with ha' | ha' <;> rcases List.mem_append.1 hb with hb' | hb'
    · exact ATree.contain_anc_t t tid par lvl l db
        (fun r hr => hsub r (List.mem_append_left _ hr)) a ha' b hb' h1 h2
    · exfalso
      have hbat := ATree.flatten_bounds_t t tid par lvl l a ha'
      have hbbf := AForest.flatten_bounds_f f tid par lvl (l + 2 * (t.size : Int)) b hb'
      omega
    · exfalso
      have hbaf := AForest.flatten_bounds_f f tid par lvl (l + 2 * (t.size : Int)) a ha'
      have hbbt := ATree.flatten_bounds_t t tid par lvl l b hb'
      omega
    · exact AForest.contain_anc_f f tid par lvl (l + 2 * (t.size : Int)) db
        (fun r hr => hsub r (List.mem_append_right _ hr)) a ha' b hb' h1 h2
end

mutual
theorem ATree.count_desc_t :
    ∀ (t : ATree) (tid : Int) (par : Option Nat) (lvl l : Int) (x : Row),
      x ∈ t.flatten tid par lvl l →
      2 * (((t.flatten tid par lvl l).filter
          (fun r => r.tree_id = x.tree_id ∧ x.lft < r.lft ∧ r.lft < x.rght)).length : Int)
        = x.rght - x.lft - 1
  | .node pk cs, tid, par, lvl, l, x => by
    intro hx
    rcases List.mem_cons.1 hx with hx' | hx'
    · have e1 : x.lft = l := by rw [hx']
      have e2 : x.rght = l + 2 * (cs.size : Int) + 1 := by rw [hx']
      have e3 : x.tree_id = tid := by rw [hx']
      simp only [ATree.flatten]
      rw [List.filter_cons_of_neg (by simp; intro _ h; omega)]
      rw [List.filter_eq_self.2 ?keep]
      case keep =>
        intro r hr
        have hb := AForest.flatten_bounds_f cs tid (some pk) (lvl + 1) (l + 1) r hr
        have hid := AForest.flatten_tree_id_f cs tid (some pk) (lvl + 1) (l + 1) r hr
        simp only [decide_eq_true_eq]
        exact ⟨by omega, by omega, by omega⟩
      rw [AForest.flatten_length_f]
      omega
    · have hbx := AForest.flatten_bounds_f cs tid (some pk) (lvl + 1) (l + 1) x hx'
      simp only [ATree.flatten]
      rw [List.filter_cons_of_neg (by simp; intro _ h; omega)]
      exact AForest.count_desc_f cs tid (some pk) (lvl + 1) (l + 1) x hx'
theorem AForest.count_desc_f :
    ∀ (f : AForest) (tid : Int) (par : Option Nat) (lvl l : Int) (x : Row),
      x ∈ f.flatten tid par lvl l →
      2 * (((f.flatten tid par lvl l).filter
          (fun r => r.tree_id = x.tree_id ∧ x.lft < r.lft ∧ r.lft < x.rght)).length : Int)
        = x.rght - x.lft - 1
  | .anil, tid, par, lvl, l, x => by intro hx; simp [AForest.flatten] at hx
  | .acons t f, tid, par, lvl, l, x => by
    intro hx
    simp only [AForest.flatten, List.filter_append]
    rcases List.mem_append.1 hx with hm | hm
    · have hbx := ATree.flatten_bounds_t t tid par lvl l x hm
      have hfnil : (f.flatten tid par lvl (l + 2 * (t.size : Int))).filter
          (fun r => r.tree_id = x.tree_id ∧ x.lft < r.lft ∧ r.lft < x.rght) = [] := by
        apply List.filter_eq_nil_iff.2
        intro r hr
        have hb := AForest.flatten_bounds_f f tid par lvl (l + 2 * (t.size : Int)) r hr
        simp only [decide_eq_true_eq]
        intro h
        omega
      rw [hfnil, List.append_nil]
      exact ATree.count_desc_t t tid par lvl l x hm
    · have hbx := AForest.flatten_bounds_f f tid par lvl (l + 2 * (t.size : Int)) x hm
      have htnil : (t.flatten tid par lvl l).filter
          (fun r => r.tree_id = x.tree_id ∧ x.lft < r.lft ∧ r.lft < x.rght) = [] := by
        apply List.filter_eq_nil_iff.2
        intro r hr
        have hb := ATree.flatten_bounds_t t tid par lvl l r hr
        simp only [decide_eq_true_eq]
        intro h
        omega
      rw [htnil, List.nil_append]
      exact AForest.count_desc_f f tid par lvl (l + 2 * (t.size : Int)) x hm
end

/-! ### Equations for the persisted operations -/

theorem saveNew_eq (db : List Row) (inst : ModelInstance) (p : Row) (newPk : Nat)
    (hpk : inst.pk = none) (hpar : inst.parent = some p) :
    saveNew db inst newPk =
      db.map (rowShiftUp (p.rght - 1) p.tree_id) ++ [childRow p newPk p.tree_id] := by
  simp only [saveNew, pre_save, hpk, hpar, incLft_incRght_eq_map, toRow, childRow,
    Option.map_some']
  congr 2
  simp only [Row.mk.injEq, eq_self_iff_true, true_and, and_true]
  constructor <;> omega

theorem pre_delete_eq (db : List Row) (x : Row) :
    pre_delete db x = db.map (rowShiftDown (x.rght - x.lft + 1) x.rght x.tree_id) := by
  simp only [pre_delete]
  exact decLft_decRght_eq_map db _ _ _

theorem deleteNode_eq (db : List Row) (x : Row) :
    deleteNode db x =
      (db.map (rowShiftDown (x.rght - x.lft + 1) x.rght x.tree_id)).filter
        (fun r => r.pk ≠ x.pk) := by
  simp only [deleteNode, pre_delete_eq]

theorem saveNew_validNS (db : List Row) (tid : Int) (inst : ModelInstance) (p : Row)
    (newPk : Nat) (hv : ValidNS db tid) (hp : p ∈ db) (hpk : inst.pk = none)
    (hpar : inst.parent = some p) (hfresh : newPk ∉ db.map Row.pk) :
    ValidNS (saveNew db inst newPk) tid := by
  obtain ⟨f, hperm, hnd⟩ := hv
  have hpf : p ∈ f.flatten tid none 0 1 := hperm.subset hp
  have htid : p.tree_id = tid := AForest.flatten_tree_id_f f tid none 0 1 p hpf
  refine ⟨f.addChild p.pk newPk, ?_, ?_⟩
  · rw [saveNew_eq db inst p newPk hpk hpar, htid]
    refine List.Perm.trans ?_ (AForest.insert_flatten_f f tid none 0 1 p newPk hnd hpf)
    exact (hperm.map _).append (List.Perm.refl _)
  · have hfreshf : newPk ∉ f.pks := by
      rw [← AForest.flatten_pks_f f tid none 0 1]
      intro hc
      exact hfresh ((hperm.map Row.pk).mem_iff.2 hc)
    have hpkmem : p.pk ∈ f.pks := by
      rw [← AForest.flatten_pks_f f tid none 0 1]
      exact List.mem_map_of_mem Row.pk hpf
    rw [(AForest.pks_addChild_f f p.pk newPk hpkmem hnd).nodup_iff]
    refine List.Nodup.append hnd (List.nodup_singleton _) ?_
    intro a haf han
    rw [List.mem_singleton] at han
    exact hfreshf (han ▸ haf)

theorem deleteNode_validNS (db : List Row) (tid : Int) (x : Row)
    (hv : ValidNS db tid) (hx : x ∈ db) (hleaf : x.rght = x.lft + 1) :
    ValidNS (deleteNode db x) tid := by
  obtain ⟨f, hperm, hnd⟩ := hv
  have hxf : x ∈ f.flatten tid none 0 1 := hperm.subset hx
  have htid : x.tree_id = tid := AForest.flatten_tree_id_f f tid none 0 1 x hxf
  refine ⟨f.remove x.pk, ?_, ?_⟩
  · rw [deleteNode_eq, htid, show x.rght - x.lft + 1 = 2 from by omega]
    refine List.Perm.trans ?_ (AForest.delete_flatten_f f tid none 0 1 x hnd hxf hleaf)
    exact (hperm.map _).filter _
  · exact (AForest.pks_remove f x.pk).nodup hnd

/-- Characterization of `MAX(tree_id)` followed by the next-id computation:
1 on an empty table, otherwise one more than the maximum stored tree id
(the Python `and/or` idiom coincides with `1 + max` also at `max = 0`). -/
theorem get_next_tree_id_spec (db : List Row) :
    (db = [] → get_next_tree_id db = 1) ∧
      (db ≠ [] → ∃ m, m ∈ db.map Row.tree_id ∧ (∀ r ∈ db, r.tree_id ≤ m) ∧
        get_next_tree_id db = 1 + m) := by
  constructor
  · intro h
    subst h
    rfl
  · intro h
    have hne : db.map Row.tree_id ≠ [] := by
      intro hc
      exact h (List.map_eq_nil_iff.1 hc)
    obtain ⟨m, hm⟩ : ∃ m, (db.map Row.tree_id).max? = some m := by
      cases hl : (db.map Row.tree_id).max? with
      | none => exact absurd (List.max?_eq_none_iff.1 hl) hne
      | some m => exact ⟨m, rfl⟩
    have hanti : Std.Antisymm (fun x1 x2 : Int => x1 ≤ x2) :=
      ⟨@fun a b h1 h2 => le_antisymm h1 h2⟩
    have hm' := hm
    rw [List.max?_eq_some_iff] at hm'
    · refine ⟨m, hm'.1, ?_, ?_⟩
      · intro r hr
        exact hm'.2 r.tree_id (List.mem_map_of_mem Row.tree_id hr)
      · simp only [get_next_tree_id, maxTreeId, hm]
        by_cases hz : m = 0
        · subst hz; simp
        · simp only [if_pos (by exact hz : m ≠ 0)]
          omega
    · exact fun a => le_refl a
    · exact fun a b => max_choice a b
    · exact fun a b c => max_le_iff

/-- Strict `lft` comparison, used to recover the unique sorted order. -/
def lftLT (a b : Row) : Prop := a.lft < b.lft

instance : IsAntisymm Row lftLT :=
  ⟨fun a b h1 h2 => by
    exfalso
    simp only [lftLT] at h1 h2
    omega⟩

theorem validNS_invariants (db : List Row) (tid : Int) (h : ValidNS db tid) :
    IntervalsValid db ∧ ContainmentIffAncestry db ∧ CountsCorrect db ∧
      PreorderCorrect db tid := by
  obtain ⟨f, hperm, hnd⟩ := h
  have hmem : ∀ r : Row, r ∈ db ↔ r ∈ f.flatten tid none 0 1 := fun r => hperm.mem_iff
  refine ⟨?_, ?_, ?_, ?_⟩
  · intro r hr
    have hrf := (hmem r).1 hr
    have hb := AForest.flatten_bounds_f f tid none 0 1 r hrf
    obtain ⟨s, hs1, hs2⟩ := AForest.flatten_span_f f tid none 0 1 r hrf
    exact ⟨hb.2.1, ⟨(s : Int) - 1, by omega⟩⟩
  · intro a ha b hb _
    constructor
    · intro hcont
      exact AForest.contain_anc_f f tid none 0 1 db (fun r hr => (hmem r).2 hr)
        a ((hmem a).1 ha) b ((hmem b).1 hb) hcont.1 hcont.2
    · intro hanc
      have hanc' : Anc (f.flatten tid none 0 1) a b :=
        hanc.congr fun r => (hmem r)
      exact AForest.anc_contain f tid none 0 1 hnd (fun k hk => by simp at hk) a b
        hanc' ((hmem a).1 ha)
  · intro r hr
    have hrf := (hmem r).1 hr
    have hcnt := AForest.count_desc_f f tid none 0 1 r hrf
    have hfp := hperm.filter
      (fun r2 => decide (r2.tree_id = r.tree_id ∧ r.lft < r2.lft ∧ r2.lft < r.rght))
    have hlen : ((get_descendants db r false).length : Int) =
        (((f.flatten tid none 0 1).filter
          (fun r2 => r2.tree_id = r.tree_id ∧ r.lft < r2.lft ∧ r2.lft < r.rght)).length :
            Int) := by
      simp only [get_descendants, Bool.false_eq_true, if_neg, List.length_insertionSort]
      exact_mod_cast hfp.length_eq
    rw [get_descendant_count, hlen, show r.rght - r.lft - 1 = 2 *
      ((((f.flatten tid none 0 1).filter
        (fun r2 => r2.tree_id = r.tree_id ∧ r.lft < r2.lft ∧ r2.lft < r.rght)).length :
          Int)) from hcnt.symm]
    exact Int.mul_fdiv_cancel_left _ (by norm_num)
  · refine ⟨f, ?_, ?_⟩
    · have hfilter : db.filter (fun r => r.tree_id = tid) = db :=
        List.filter_eq_self.2 fun r hr => by
          simp only [decide_eq_true_eq]
          exact AForest.flatten_tree_id_f f tid none 0 1 r ((hmem r).1 hr)
      rw [hfilter]
      exact hperm
    · have hfilter : db.filter (fun r => r.tree_id = tid) = db :=
        List.filter_eq_self.2 fun r hr => by
          simp only [decide_eq_true_eq]
          exact AForest.flatten_tree_id_f f tid none 0 1 r ((hmem r).1 hr)
      rw [hfilter]
      have hperm2 : (db.insertionSort lftLE).Perm (f.flatten tid none 0 1) :=
        (List.perm_insertionSort lftLE db).trans hperm
      have hstrictflat : (f.flatten tid none 0 1).Pairwise lftLT :=
        (AForest.flatten_lft_strict_f f tid none 0 1).imp fun h => h
      have hlftnodup : ((db.insertionSort lftLE).map Row.lft).Nodup := by
        have h1 : ((f.flatten tid none 0 1).map Row.lft).Nodup := by
          rw [List.Nodup, List.pairwise_map]
          exact (AForest.flatten_lft_strict_f f tid none 0 1).imp fun h => by omega
        exact (hperm2.map Row.lft).nodup_iff.2 h1
      have hstrictsorted : (db.insertionSort lftLE).Pairwise lftLT := by
        have hle : (db.insertionSort lftLE).Pairwise lftLE :=
          List.sorted_insertionSort lftLE db
        have hne : (db.insertionSort lftLE).Pairwise
            (fun a b => a.lft ≠ b.lft) := by
          rw [List.Nodup, List.pairwise_map] at hlftnodup
          exact hlftnodup
        exact (hle.and hne).imp fun hab => by
          simp only [lftLE, lftLT] at *
          omega
      exact List.eq_of_perm_of_sorted hperm2 hstrictsorted hstrictflat



/-! ## Concrete tables used to witness the claims -/

/-- A single persisted root row. -/
def exP1 : Row :=
  { pk := 1, parentId := none, lft := 1, rght := 2, tree_id := 1, level := 0 }

def exDb1 : List Row := [exP1]

/-- A fresh instance whose parent attribute holds `exP1`. -/
def exInst1 : ModelInstance :=
  { pk := none, parent := some exP1, lft := 0, rght := 0, tree_id := 0, level := 0 }

/-- A fresh root instance (no parent). -/
def exInstRoot : ModelInstance :=
  { pk := none, parent := none, lft := 0, rght := 0, tree_id := 0, level := 0 }

/-- Root with one child: rows of the abstract tree with pks 1 and 2. -/
def exR2 : Row :=
  { pk := 1, parentId := none, lft := 1, rght := 4, tree_id := 1, level := 0 }

def exC2 : Row :=
  { pk := 2, parentId := some 1, lft := 2, rght := 3, tree_id := 1, level := 1 }

def exDb2 : List Row := [exR2, exC2]

def exF2 : AForest := .acons (.node 1 (.acons (.node 2 .anil) .anil)) .anil

theorem exDb2_valid : ValidNS exDb2 1 := by
  refine ⟨exF2, ?_, by decide⟩
  rw [show exDb2 = exF2.flatten 1 none 0 1 from by decide]

/-- Root with two children: rows of the abstract tree with pks 1, 2, 3. -/
def exR3 : Row :=
  { pk := 1, parentId := none, lft := 1, rght := 6, tree_id := 1, level := 0 }

def exA3 : Row :=
  { pk := 2, parentId := some 1, lft := 2, rght := 3, tree_id := 1, level := 1 }

def exB3 : Row :=
  { pk := 3, parentId := some 1, lft := 4, rght := 5, tree_id := 1, level := 1 }

def exDb3 : List Row := [exR3, exA3, exB3]

def exF3 : AForest :=
  .acons (.node 1 (.acons (.node 2 .anil) (.acons (.node 3 .anil) .anil))) .anil

theorem exDb3_valid : ValidNS exDb3 1 := by
  refine ⟨exF3, ?_, by decide⟩
  rw [show exDb3 = exF3.flatten 1 none 0 1 from by decide]

/-- A fresh instance whose parent attribute holds `exA3` (the first child). -/
def exInst3 : ModelInstance :=
  { pk := none, parent := some exA3, lft := 0, rght := 0, tree_id := 0, level := 0 }

/-! ## The claims -/

/-- C1: for every creation of an instance whose parent is set (and whose
primary key is not), the pre-save hook adds 2 to the `rght` of every row of
the parent's tree whose `rght` exceeds `target = parent.rght - 1`, adds 2 to
the `lft` of every such row whose `lft` exceeds `target`, leaves all other
stored fields unchanged, and assigns the instance
`lft = target + 1`, `rght = target + 2`, `tree_id = parent.tree_id`,
`level = parent.level + 1`. -/
theorem C1_pre_save_child (db : List Row) (inst : ModelInstance) (p : Row)
    (hpk : inst.pk = none) (hpar : inst.parent = some p) :
    (pre_save db inst).2 =
        db.map (fun r =>
          { r with
            rght := if r.rght > p.rght - 1 ∧ r.tree_id = p.tree_id then r.rght + 2
              else r.rght,
            lft := if r.lft > p.rght - 1 ∧ r.tree_id = p.tree_id then r.lft + 2
              else r.lft }) ∧
      (pre_save db inst).1 =
        { inst with lft := p.rght - 1 + 1, rght := p.rght - 1 + 2,
                    tree_id := p.tree_id, level := p.level + 1 } := by
  constructor
  · simp only [pre_save, hpk, hpar, incLft_incRght_eq_map]
    apply List.map_congr_left
    intro r _
    simp only [rowShiftUp, gt_iff_lt]
  · simp only [pre_save, hpk, hpar]

theorem C1_witness :
    exInst1.pk = none ∧ exInst1.parent = some exP1 ∧
      (pre_save exDb1 exInst1).2 =
        exDb1.map (fun r =>
          { r with
            rght := if r.rght > exP1.rght - 1 ∧ r.tree_id = exP1.tree_id then r.rght + 2
              else r.rght,
            lft := if r.lft > exP1.rght - 1 ∧ r.tree_id = exP1.tree_id then r.lft + 2
              else r.lft }) ∧
      (pre_save exDb1 exInst1).1 =
        { exInst1 with lft := exP1.rght - 1 + 1, rght := exP1.rght - 1 + 2,
                       tree_id := exP1.tree_id, level := exP1.level + 1 } :=
  ⟨rfl, rfl, (C1_pre_save_child exDb1 exInst1 exP1 rfl rfl).1,
    (C1_pre_save_child exDb1 exInst1 exP1 rfl rfl).2⟩

/-- C3: for every deletion, with `span = rght - lft + 1`, the pre-delete
hook subtracts `span` from the `rght` of every row of the node's tree whose
`rght` exceeds the node's old `rght`, and from the `lft` of every such row
whose `lft` exceeds that old `rght`, leaving all other stored fields
unchanged. -/
theorem C3_pre_delete (db : List Row) (x : Row) :
    pre_delete db x =
      db.map (fun r =>
        { r with
          rght := if r.rght > x.rght ∧ r.tree_id = x.tree_id then
              r.rght - (x.rght - x.lft + 1) else r.rght,
          lft := if r.lft > x.rght ∧ r.tree_id = x.tree_id then
              r.lft - (x.rght - x.lft + 1) else r.lft }) := by
  rw [pre_delete_eq]
  apply List.map_congr_left
  intro r _
  simp only [rowShiftDown, gt_iff_lt]

/-- C5: for every creation of an instance with no parent (and no primary
key), the pre-save hook assigns `lft = 1`, `rght = 2`, `level = 0` and a
tree id that is 1 on an empty table and one more than the maximum stored
tree id otherwise, and touches no other row. -/
theorem C5_pre_save_root (db : List Row) (inst : ModelInstance)
    (hpk : inst.pk = none) (hpar : inst.parent = none) :
    (pre_save db inst).1 =
        { inst with lft := 1, rght := 2, tree_id := get_next_tree_id db, level := 0 } ∧
      (pre_save db inst).2 = db ∧
      (db = [] → get_next_tree_id db = 1) ∧
      (db ≠ [] → ∃ m, m ∈ db.map Row.tree_id ∧ (∀ r ∈ db, r.tree_id ≤ m) ∧
        get_next_tree_id db = 1 + m) := by
  refine ⟨?_, ?_, (get_next_tree_id_spec db).1, (get_next_tree_id_spec db).2⟩
  · simp only [pre_save, hpk, hpar]
  · simp only [pre_save, hpk, hpar]

theorem C5_witness :
    exInstRoot.pk = none ∧ exInstRoot.parent = none ∧
      (pre_save exDb1 exInstRoot).1 =
        { exInstRoot with lft := 1, rght := 2, tree_id := get_next_tree_id exDb1,
                          level := 0 } ∧
      (pre_save exDb1 exInstRoot).2 = exDb1 ∧
      (exDb1 = [] → get_next_tree_id exDb1 = 1) ∧
      (exDb1 ≠ [] → ∃ m, m ∈ exDb1.map Row.tree_id ∧ (∀ r ∈ exDb1, r.tree_id ≤ m) ∧
        get_next_tree_id exDb1 = 1 + m) := by
  have h := C5_pre_save_root exDb1 exInstRoot rfl rfl
  exact ⟨rfl, rfl, h.1, h.2.1, h.2.2.1, h.2.2.2⟩

/-- C9: when the saved instance already has a primary key, the pre-save
hook changes nothing: the instance keeps all its attributes and the table
is untouched. -/
theorem C9_pre_save_noop (db : List Row) (inst : ModelInstance) (k : Nat)
    (hpk : inst.pk = some k) : pre_save db inst = (inst, db) := by
  simp only [pre_save, hpk]

theorem C9_witness :
    ({ exInst1 with pk := some 7 } : ModelInstance).pk = some 7 ∧
      pre_save exDb1 { exInst1 with pk := some 7 } =
        ({ exInst1 with pk := some 7 }, exDb1) :=
  ⟨rfl, C9_pre_save_noop exDb1 { exInst1 with pk := some 7 } 7 rfl⟩

/-- C10: the pre-delete hook leaves every strict descendant row completely
unchanged: a descendant's `lft` and `rght` both lie strictly below the
deleted node's `rght`, so neither range update touches it, and it keeps its
interval inside the removed range. -/
theorem C10_descendants_untouched (db : List Row) (x d : Row)
    (h1 : x.lft < d.lft) (h2 : d.lft < d.rght) (h3 : d.rght < x.rght) :
    pre_delete db x = db.map (rowShiftDown (x.rght - x.lft + 1) x.rght x.tree_id) ∧
      rowShiftDown (x.rght - x.lft + 1) x.rght x.tree_id d = d ∧
      (d ∈ db → d ∈ pre_delete db x) := by
  refine ⟨pre_delete_eq db x, ?_, ?_⟩
  · exact rowShiftDown_id _ _ _ _ (by omega) h2
  · intro hd
    rw [pre_delete_eq]
    have := List.mem_map_of_mem (rowShiftDown (x.rght - x.lft + 1) x.rght x.tree_id) hd
    rwa [rowShiftDown_id _ _ _ _ (by omega) h2] at this

/-- C7: the ancestors query returns the empty sequence when the node's
parent is null; otherwise it returns exactly the rows whose interval
strictly contains the node's within the same tree, ordered by ascending
`lft` (root first) by default and by descending `lft` (immediate parent
first) when `ascending` is true. -/
theorem C7_get_ancestors (db : List Row) (node : Row) (ascending : Bool) :
    (node.parentId = none → get_ancestors db node ascending = []) ∧
      (∀ k, node.parentId = some k →
        (get_ancestors db node ascending).Perm
          (db.filter (fun A =>
            A.lft < node.lft ∧ node.rght < A.rght ∧ A.tree_id = node.tree_id))) ∧
      (ascending = false → (get_ancestors db node ascending).Pairwise lftLE) ∧
      (ascending = true → (get_ancestors db node ascending).Pairwise lftGE) := by
  refine ⟨?_, ?_, ?_, ?_⟩
  · intro h
    simp only [get_ancestors, h]
  · intro k hk
    simp only [get_ancestors, hk]
    cases ascending with
    | false => exact List.perm_insertionSort lftLE _
    | true => exact List.perm_insertionSort lftGE _
  · intro h
    subst h
    cases hpar : node.parentId with
    | none => simp only [get_ancestors, hpar]; exact List.Pairwise.nil
    | some k =>
      simp only [get_ancestors, hpar, Bool.false_eq_true, if_neg]
      exact List.sorted_insertionSort lftLE _
  · intro h
    subst h
    cases hpar : node.parentId with
    | none => simp only [get_ancestors, hpar]; exact List.Pairwise.nil
    | some k =>
      simp only [get_ancestors, hpar, if_pos]
      exact List.sorted_insertionSort lftGE _

theorem C7_witness :
    (exC2.parentId = none → get_ancestors exDb2 exC2 false = []) ∧
      (∀ k, exC2.parentId = some k →
        (get_ancestors exDb2 exC2 false).Perm
          (exDb2.filter (fun A =>
            A.lft < exC2.lft ∧ exC2.rght < A.rght ∧ A.tree_id = exC2.tree_id))) ∧
      (false = false → (get_ancestors exDb2 exC2 false).Pairwise lftLE) ∧
      (false = true → (get_ancestors exDb2 exC2 false).Pairwise lftGE) :=
  C7_get_ancestors exDb2 exC2 false

/-- C8: two roots created in succession into an empty table receive tree
ids 1 and 2 and each the interval `(1, 2)`; and the range updates of both
hooks are the identity on every row of any other tree id, which therefore
survives inserts and deletes unchanged. -/
theorem C8_tree_isolation :
    saveNew [] exInstRoot 1 = [{ pk := 1, parentId := none, lft := 1, rght := 2, tree_id := 1, level := 0 }] ∧
      saveNew (saveNew [] exInstRoot 1) exInstRoot 2 =
        [{ pk := 1, parentId := none, lft := 1, rght := 2, tree_id := 1, level := 0 },
          { pk := 2, parentId := none, lft := 1, rght := 2, tree_id := 2, level := 0 }] ∧
      (∀ (db : List Row) (inst : ModelInstance) (p : Row) (newPk : Nat),
        inst.pk = none → inst.parent = some p →
        ∀ r ∈ db, r.tree_id ≠ p.tree_id →
          rowShiftUp (p.rght - 1) p.tree_id r = r ∧ r ∈ saveNew db inst newPk) ∧
      (∀ (db : List Row) (inst : ModelInstance) (newPk : Nat),
        inst.pk = none → inst.parent = none →
        ∀ r ∈ db, r ∈ saveNew db inst newPk) ∧
      (∀ (db : List Row) (x : Row), ∀ r ∈ db, r.tree_id ≠ x.tree_id →
        rowShiftDown (x.rght - x.lft + 1) x.rght x.tree_id r = r ∧
          (r.pk ≠ x.pk → r ∈ deleteNode db x)) := by
  refine ⟨by decide, by decide, ?_, ?_, ?_⟩
  · intro db inst p newPk hpk hpar r hr hne
    have hid : rowShiftUp (p.rght - 1) p.tree_id r = r := by
      simp [rowShiftUp, hne]
    refine ⟨hid, ?_⟩
    rw [saveNew_eq db inst p newPk hpk hpar]
    apply List.mem_append_left
    have := List.mem_map_of_mem (rowShiftUp (p.rght - 1) p.tree_id) hr
    rwa [hid] at this
  · intro db inst newPk hpk hpar r hr
    simp only [saveNew, pre_save, hpk, hpar]
    exact List.mem_append_left _ hr
  · intro db x r hr hne
    have hid : rowShiftDown (x.rght - x.lft + 1) x.rght x.tree_id r = r := by
      simp [rowShiftDown, hne]
    refine ⟨hid, ?_⟩
    intro hpk
    rw [deleteNode_eq]
    apply List.mem_filter.2
    refine ⟨?_, by simpa using hpk⟩
    have := List.mem_map_of_mem (rowShiftDown (x.rght - x.lft + 1) x.rght x.tree_id) hr
    rwa [hid] at this

theorem C8_witness :
    ({ exP1 with tree_id := 5 } : Row).tree_id ≠ exA3.tree_id ∧
      rowShiftUp (exA3.rght - 1) exA3.tree_id { exP1 with tree_id := 5 } =
        { exP1 with tree_id := 5 } ∧
      { exP1 with tree_id := 5 } ∈
        saveNew [{ exP1 with tree_id := 5 }] exInst3 9 :=
  ⟨by decide,
    ((C8_tree_isolation.2.2.1 [{ exP1 with tree_id := 5 }] exInst3 exA3 9 rfl rfl
      { exP1 with tree_id := 5 } (by decide) (by decide)).1),
    ((C8_tree_isolation.2.2.1 [{ exP1 with tree_id := 5 }] exInst3 exA3 9 rfl rfl
      { exP1 with tree_id := 5 } (by decide) (by decide)).2)⟩

theorem C10_witness :
    exR2.lft < exC2.lft ∧ exC2.lft < exC2.rght ∧ exC2.rght < exR2.rght ∧
      (pre_delete exDb2 exR2 =
          exDb2.map (rowShiftDown (exR2.rght - exR2.lft + 1) exR2.rght exR2.tree_id) ∧
        rowShiftDown (exR2.rght - exR2.lft + 1) exR2.rght exR2.tree_id exC2 = exC2 ∧
        (exC2 ∈ exDb2 → exC2 ∈ pre_delete exDb2 exR2)) :=
  ⟨by decide, by decide, by decide,
    C10_descendants_untouched exDb2 exR2 exC2 (by decide) (by decide) (by decide)⟩

/-- C6: on a valid tree, the O(1) descendant count `(rght - lft - 1) / 2`
equals the number of rows returned by the descendants query (the rows of
the same tree whose `lft` lies strictly between the node's `lft` and
`rght`). -/
theorem C6_descendant_count (db : List Row) (tid : Int) (x : Row)
    (hv : ValidNS db tid) (hx : x ∈ db) :
    get_descendant_count x = (x.rght - x.lft - 1).fdiv 2 ∧
      get_descendant_count x = ((get_descendants db x false).length : Int) := by
  refine ⟨rfl, ?_⟩
  exact (validNS_invariants db tid hv).2.2.1 x hx

theorem C6_witness :
    ValidNS exDb2 1 ∧ exR2 ∈ exDb2 ∧
      (get_descendant_count exR2 = (exR2.rght - exR2.lft - 1).fdiv 2 ∧
        get_descendant_count exR2 = ((get_descendants exDb2 exR2 false).length : Int)) :=
  ⟨exDb2_valid, by decide, C6_descendant_count exDb2 1 exR2 exDb2_valid (by decide)⟩

/-- C4: deleting a leaf (a row with `rght = lft + 1`) from a valid tree
leaves a valid tree satisfying P1 to P4; the surviving rows are exactly the
shifted copies of the others, where an index (`lft` or `rght`) moves down
by exactly 2 when it exceeds the deleted row's former `rght` and is
unchanged otherwise, all other columns being preserved. -/
theorem C4_delete_leaf (db : List Row) (tid : Int) (x : Row)
    (hv : ValidNS db tid) (hx : x ∈ db) (hleaf : x.rght = x.lft + 1) :
    ValidNS (deleteNode db x) tid ∧
      IntervalsValid (deleteNode db x) ∧
      ContainmentIffAncestry (deleteNode db x) ∧
      CountsCorrect (deleteNode db x) ∧
      PreorderCorrect (deleteNode db x) tid ∧
      deleteNode db x =
        (db.map (rowShiftDown 2 x.rght x.tree_id)).filter (fun r => r.pk ≠ x.pk) ∧
      (∀ r ∈ db,
        (rowShiftDown 2 x.rght x.tree_id r).lft =
            (if r.lft > x.rght then r.lft - 2 else r.lft) ∧
          (rowShiftDown 2 x.rght x.tree_id r).rght =
            (if r.rght > x.rght then r.rght - 2 else r.rght) ∧
          (rowShiftDown 2 x.rght x.tree_id r).pk = r.pk ∧
          (rowShiftDown 2 x.rght x.tree_id r).parentId = r.parentId ∧
          (rowShiftDown 2 x.rght x.tree_id r).tree_id = r.tree_id ∧
          (rowShiftDown 2 x.rght x.tree_id r).level = r.level) := by
  have hvalid := deleteNode_validNS db tid x hv hx hleaf
  have hinv := validNS_invariants _ tid hvalid
  obtain ⟨f, hperm, hnd⟩ := hv
  have htid : ∀ r ∈ db, r.tree_id = tid := fun r hr =>
    AForest.flatten_tree_id_f f tid none 0 1 r (hperm.subset hr)
  refine ⟨hvalid, hinv.1, hinv.2.1, hinv.2.2.1, hinv.2.2.2, ?_, ?_⟩
  · rw [deleteNode_eq, show x.rght - x.lft + 1 = 2 from by omega]
  · intro r hr
    have hrtid : r.tree_id = x.tree_id := (htid r hr).trans (htid x hx).symm
    simp only [rowShiftDown, hrtid, and_true, gt_iff_lt]

theorem C4_witness :
    ValidNS exDb2 1 ∧ exC2 ∈ exDb2 ∧ exC2.rght = exC2.lft + 1 ∧
      (ValidNS (deleteNode exDb2 exC2) 1 ∧
        IntervalsValid (deleteNode exDb2 exC2) ∧
        ContainmentIffAncestry (deleteNode exDb2 exC2) ∧
        CountsCorrect (deleteNode exDb2 exC2) ∧
        PreorderCorrect (deleteNode exDb2 exC2) 1 ∧
        deleteNode exDb2 exC2 =
          (exDb2.map (rowShiftDown 2 exC2.rght exC2.tree_id)).filter
            (fun r => r.pk ≠ exC2.pk) ∧
        (∀ r ∈ exDb2,
          (rowShiftDown 2 exC2.rght exC2.tree_id r).lft =
              (if r.lft > exC2.rght then r.lft - 2 else r.lft) ∧
            (rowShiftDown 2 exC2.rght exC2.tree_id r).rght =
              (if r.rght > exC2.rght then r.rght - 2 else r.rght) ∧
            (rowShiftDown 2 exC2.rght exC2.tree_id r).pk = r.pk ∧
            (rowShiftDown 2 exC2.rght exC2.tree_id r).parentId = r.parentId ∧
            (rowShiftDown 2 exC2.rght exC2.tree_id r).tree_id = r.tree_id ∧
            (rowShiftDown 2 exC2.rght exC2.tree_id r).level = r.level)) :=
  ⟨exDb2_valid, by decide, by decide,
    C4_delete_leaf exDb2 1 exC2 exDb2_valid (by decide) (by decide)⟩

/-- C2 (counterexample to the frame clause as stated): in the valid tree
with root 1 and children 2, 3, inserting a new leaf under node 2 changes the
stored indices of node 3, although node 3 is not an ancestor of node 2 —
the insertion shifts every index beyond the gap, not only ancestors. -/
theorem C2_counterexample :
    ValidNS exDb3 1 ∧ exA3 ∈ exDb3 ∧ exInst3.pk = none ∧
      exInst3.parent = some exA3 ∧ exB3 ∈ exDb3 ∧
      ¬(exB3.lft < exA3.lft ∧ exA3.rght < exB3.rght) ∧
      (∀ r ∈ saveNew exDb3 exInst3 4, r.pk = exB3.pk →
        r.lft ≠ exB3.lft ∧ r.rght ≠ exB3.rght) :=
  ⟨exDb3_valid, by decide, rfl, rfl, by decide, by decide, by decide⟩

/-- C2 (amended): starting from any valid tree, inserting a new leaf under
any existing node yields a valid tree satisfying P1 to P4; the table
becomes the shifted copies of the old rows plus the new child row; every
strict ancestor's `rght` grows by exactly 2 with its `lft` unchanged; and
in general an existing row's `lft` (resp. `rght`) grows by exactly 2 when
it exceeds `parent.rght - 1` and is unchanged otherwise, all other columns
being preserved. -/
theorem C2_insert_leaf (db : List Row) (tid : Int) (inst : ModelInstance) (p : Row)
    (newPk : Nat) (hv : ValidNS db tid) (hp : p ∈ db) (hpk : inst.pk = none)
    (hpar : inst.parent = some p) (hfresh : newPk ∉ db.map Row.pk) :
    ValidNS (saveNew db inst newPk) tid ∧
      IntervalsValid (saveNew db inst newPk) ∧
      ContainmentIffAncestry (saveNew db inst newPk) ∧
      CountsCorrect (saveNew db inst newPk) ∧
      PreorderCorrect (saveNew db inst newPk) tid ∧
      saveNew db inst newPk =
        db.map (rowShiftUp (p.rght - 1) p.tree_id) ++ [childRow p newPk p.tree_id] ∧
      (∀ a ∈ db, a.lft < p.lft → p.rght < a.rght →
        (rowShiftUp (p.rght - 1) p.tree_id a).rght = a.rght + 2 ∧
          (rowShiftUp (p.rght - 1) p.tree_id a).lft = a.lft) ∧
      (∀ r ∈ db,
        (rowShiftUp (p.rght - 1) p.tree_id r).lft =
            (if r.lft > p.rght - 1 then r.lft + 2 else r.lft) ∧
          (rowShiftUp (p.rght - 1) p.tree_id r).rght =
            (if r.rght > p.rght - 1 then r.rght + 2 else r.rght) ∧
          (rowShiftUp (p.rght - 1) p.tree_id r).pk = r.pk ∧
          (rowShiftUp (p.rght - 1) p.tree_id r).parentId = r.parentId ∧
          (rowShiftUp (p.rght - 1) p.tree_id r).tree_id = r.tree_id ∧
          (rowShiftUp (p.rght - 1) p.tree_id r).level = r.level) := by
  have hvalid := saveNew_validNS db tid inst p newPk hv hp hpk hpar hfresh
  have hinv := validNS_invariants _ tid hvalid
  obtain ⟨f, hperm, hnd⟩ := hv
  have htid : ∀ r ∈ db, r.tree_id = tid := fun r hr =>
    AForest.flatten_tree_id_f f tid none 0 1 r (hperm.subset hr)
  have hplr : p.lft < p.rght :=
    (AForest.flatten_bounds_f f tid none 0 1 p (hperm.subset hp)).2.1
  refine ⟨hvalid, hinv.1, hinv.2.1, hinv.2.2.1, hinv.2.2.2,
    saveNew_eq db inst p newPk hpk hpar, ?_, ?_⟩
  · intro a ha h1 h2
    have hatid : a.tree_id = p.tree_id := (htid a ha).trans (htid p hp).symm
    constructor
    · simp only [rowShiftUp]
      rw [if_pos ⟨by omega, hatid⟩]
    · simp only [rowShiftUp]
      rw [if_neg (by omega : ¬(p.rght - 1 < a.lft ∧ a.tree_id = p.tree_id))]
  · intro r hr
    have hrtid : r.tree_id = p.tree_id := (htid r hr).trans (htid p hp).symm
    simp only [rowShiftUp, hrtid, and_true, gt_iff_lt]

/-- A fresh instance whose parent attribute holds `exR2` (the root). -/
def exInst2 : ModelInstance :=
  { pk := none, parent := some exR2, lft := 0, rght := 0, tree_id := 0, level := 0 }

theorem C2_witness :
    ValidNS exDb2 1 ∧ exR2 ∈ exDb2 ∧ exInst2.pk = none ∧
      exInst2.parent = some exR2 ∧ (3 : Nat) ∉ exDb2.map Row.pk ∧
      (ValidNS (saveNew exDb2 exInst2 3) 1 ∧
        IntervalsValid (saveNew exDb2 exInst2 3) ∧
        ContainmentIffAncestry (saveNew exDb2 exInst2 3) ∧
        CountsCorrect (saveNew exDb2 exInst2 3) ∧
        PreorderCorrect (saveNew exDb2 exInst2 3) 1 ∧
        saveNew exDb2 exInst2 3 =
          exDb2.map (rowShiftUp (exR2.rght - 1) exR2.tree_id) ++
            [childRow exR2 3 exR2.tree_id] ∧
        (∀ a ∈ exDb2, a.lft < exR2.lft → exR2.rght < a.rght →
          (rowShiftUp (exR2.rght - 1) exR2.tree_id a).rght = a.rght + 2 ∧
            (rowShiftUp (exR2.rght - 1) exR2.tree_id a).lft = a.lft) ∧
        (∀ r ∈ exDb2,
          (rowShiftUp (exR2.rght - 1) exR2.tree_id r).lft =
              (if r.lft > exR2.rght - 1 then r.lft + 2 else r.lft) ∧
            (rowShiftUp (exR2.rght - 1) exR2.tree_id r).rght =
              (if r.rght > exR2.rght - 1 then r.rght + 2 else r.rght) ∧
            (rowShiftUp (exR2.rght - 1) exR2.tree_id r).pk = r.pk ∧
            (rowShiftUp (exR2.rght - 1) exR2.tree_id r).parentId = r.parentId ∧
            (rowShiftUp (exR2.rght - 1) exR2.tree_id r).tree_id = r.tree_id ∧
            (rowShiftUp (exR2.rght - 1) exR2.tree_id r).level = r.level)) :=
  ⟨exDb2_valid, by decide, rfl, rfl, by decide,
    C2_insert_leaf exDb2 1 exInst2 exR2 3 exDb2_valid (by decide) rfl rfl (by decide)⟩

end Vgdb
